import Mathlib

/-!
Verification of the `gmail_cleanup` core (`src/utils.py`) against its
natural-language specification.

The Python code is shallowly embedded as follows.

* A Python `dict` is modelled as an association list `List (κ × β)` kept in
  insertion order, with lookup returning the first matching key.  The two
  `dict` operations the code uses are modelled by `dictInsert`
  (`d[k] = v`: overwrite in place if the key is present, append otherwise)
  and `dictUpdate` (`d.update(other)`: left-to-right `dictInsert` of every
  pair of `other`).
* The cache (`email_cache.json`, id -> record) maps message ids to
  `CacheRecord` values.  Message ids are kept abstract: any type `α` with
  decidable equality (the real program uses strings; concrete examples in
  this file use `Nat` ids for cheap kernel evaluation).
* Remote calls are modelled by oracles passed as parameters: `fetch` gives,
  per message id, the result of its individual detail sub-request (`none`
  models a per-id error handed to `batch_callback` as `exception`), and
  `batchOk` / `ok` booleans give the outcome of a whole remote HTTP call
  (`batch.execute()` / `batchModify`), indexed by batch number.
* Cooperative cancellation (`threading.Event`) is modelled by an optional
  batch index `stopAt`: `some s` means the flag becomes set just before the
  loop's stop check preceding batch `s` (and, being a latch, stays set for
  every later check); `none` means the flag is never set.
* Wall-clock effects (`time.sleep`) and log strings (`str(e)` of a caught
  exception, display formatting of dates) carry no claim-relevant data and
  are abstracted: sleeps are dropped and abstract message text is used.
-/

/-- One value of the local cache: the metadata stored per message id by
`batch_callback` in `src/utils.py` (`email`, `name`, `last_date`,
`labels`). -/
structure CacheRecord where
  email : String
  name : String
  last_date : Int
  labels : List String
deriving DecidableEq, Repr

/-- First-match association-list lookup, the model of Python `d[k]` /
`k in d` on insertion-ordered dicts. -/
def alookup {κ β : Type} [DecidableEq κ] : List (κ × β) → κ → Option β
  | [], _ => none
  | p :: rest, k => if p.1 = k then some p.2 else alookup rest k

/-- The keys of an association list, in order. -/
def dkeys {κ β : Type} (l : List (κ × β)) : List κ := l.map Prod.fst

theorem dkeys_cons {κ β : Type} (p : κ × β) (rest : List (κ × β)) :
    dkeys (p :: rest) = p.1 :: dkeys rest := rfl

/-- Model of Python `d[k] = v`: if `k` is already a key its entry is
overwritten in place, otherwise `(k, v)` is appended at the end. -/
def dictInsert {κ β : Type} [DecidableEq κ] (c : List (κ × β)) (k : κ) (v : β) :
    List (κ × β) :=
  if (alookup c k).isSome then
    c.map (fun p => if p.1 = k then (k, v) else p)
  else
    c ++ [(k, v)]

/-- Model of Python `d.update(other)`: insert every pair of `other` into `d`
from left to right. -/
def dictUpdate {κ β : Type} [DecidableEq κ] (c other : List (κ × β)) : List (κ × β) :=
  other.foldl (fun acc p => dictInsert acc p.1 p.2) c

theorem alookup_append {κ β : Type} [DecidableEq κ] (l₁ l₂ : List (κ × β)) (k : κ) :
    alookup (l₁ ++ l₂) k = (alookup l₁ k).or (alookup l₂ k) := by
  induction l₁ with
  | nil => simp [alookup]
  | cons p rest ih =>
    by_cases h : p.1 = k <;> simp [alookup, h, ih]

theorem alookup_map_overwrite {κ β : Type} [DecidableEq κ] (k : κ) (v : β) :
    ∀ (c : List (κ × β)) (k' : κ),
      alookup (c.map (fun p => if p.1 = k then (k, v) else p)) k' =
        if k' = k then (alookup c k).map (fun _ => v) else alookup c k' := by
  intro c
  induction c with
  | nil => intro k'; simp [alookup]
  | cons p rest ih =>
    intro k'
    by_cases h1 : p.1 = k
    · by_cases h2 : k' = k
      · subst h2; simp [alookup, h1]
      · have h2' : ¬ k = k' := fun h => h2 h.symm
        have hne : ¬ p.1 = k' := by rw [h1]; intro h; exact h2 h.symm
        simp [alookup, h1, h2, h2', hne, ih]
    · by_cases h2 : k' = k
      · subst h2; simp [alookup, h1, ih]
      · by_cases h3 : p.1 = k'
        · simp [alookup, h1, h2, h3, ih]
        · simp [alookup, h1, h2, h3, ih]

theorem alookup_dictInsert {κ β : Type} [DecidableEq κ] (c : List (κ × β)) (k : κ) (v : β)
    (k' : κ) :
    alookup (dictInsert c k v) k' = if k' = k then some v else alookup c k' := by
  unfold dictInsert
  by_cases hp : (alookup c k).isSome
  · rw [if_pos hp, alookup_map_overwrite]
    by_cases h2 : k' = k
    · cases ha : alookup c k with
      | none => rw [ha] at hp; simp at hp
      | some w => simp [h2, ha]
    · simp [h2]
  · rw [if_neg hp, alookup_append]
    have hnone : alookup c k = none := by
      cases ha : alookup c k with
      | none => rfl
      | some w => rw [ha] at hp; simp at hp
    by_cases h2 : k' = k
    · subst h2; simp [hnone, alookup]
    · have hne : ¬ k = k' := fun h => h2 h.symm
      cases ha : alookup c k' <;> simp [alookup, ha, hne, h2]

theorem alookup_dictUpdate {κ β : Type} [DecidableEq κ] (other : List (κ × β)) :
    ∀ (c : List (κ × β)) (k : κ),
      alookup (dictUpdate c other) k = (alookup other.reverse k).or (alookup c k) := by
  induction other with
  | nil => intro c k; simp [dictUpdate, alookup]
  | cons p rest ih =>
    intro c k
    have hstep : dictUpdate c (p :: rest) = dictUpdate (dictInsert c p.1 p.2) rest := rfl
    rw [hstep, ih, alookup_dictInsert, List.reverse_cons, alookup_append]
    by_cases h : k = p.1
    · cases hr : alookup rest.reverse k <;> simp [alookup, h, hr]
    · have hne : ¬ p.1 = k := fun hh => h hh.symm
      cases hr : alookup rest.reverse k <;> simp [alookup, h, hne, hr]

theorem alookup_isSome_iff {κ β : Type} [DecidableEq κ] (l : List (κ × β)) (k : κ) :
    (alookup l k).isSome ↔ k ∈ dkeys l := by
  induction l with
  | nil => simp [alookup, dkeys]
  | cons p rest ih =>
    by_cases h : p.1 = k
    · simp [alookup, dkeys, h]
    · have hne : ¬ k = p.1 := fun hh => h hh.symm
      simp [alookup, dkeys, h, hne, ih]

theorem alookup_eq_none_iff {κ β : Type} [DecidableEq κ] (l : List (κ × β)) (k : κ) :
    alookup l k = none ↔ k ∉ dkeys l := by
  rw [← alookup_isSome_iff]
  cases alookup l k <;> simp

theorem alookup_eq_some_of_nodup {κ β : Type} [DecidableEq κ] (l : List (κ × β)) (k : κ)
    (v : β) (hn : (dkeys l).Nodup) (hm : (k, v) ∈ l) : alookup l k = some v := by
  induction l with
  | nil => cases hm
  | cons p rest ih =>
    rw [dkeys_cons] at hn
    have hn2 := List.nodup_cons.mp hn
    rcases List.mem_cons.mp hm with h | h
    · subst h; simp [alookup]
    · have hk : k ∈ dkeys rest := List.mem_map_of_mem Prod.fst h
      have hp : ¬ p.1 = k := fun he => hn2.1 (he ▸ hk)
      simp [alookup, hp, ih hn2.2 h]

theorem dkeys_reverse {κ β : Type} (l : List (κ × β)) :
    dkeys l.reverse = (dkeys l).reverse := by
  simp [dkeys]

theorem alookup_reverse_eq_some_of_nodup {κ β : Type} [DecidableEq κ] (l : List (κ × β))
    (k : κ) (v : β) (hn : (dkeys l).Nodup) (hm : (k, v) ∈ l) :
    alookup l.reverse k = some v :=
  alookup_eq_some_of_nodup l.reverse k v
    (by rw [dkeys_reverse]; exact List.nodup_reverse.mpr hn) (List.mem_reverse.mpr hm)

theorem dictUpdate_append {κ β : Type} [DecidableEq κ] (c l₁ l₂ : List (κ × β)) :
    dictUpdate c (l₁ ++ l₂) = dictUpdate (dictUpdate c l₁) l₂ := by
  simp [dictUpdate, List.foldl_append]

theorem dkeys_append {κ β : Type} (l₁ l₂ : List (κ × β)) :
    dkeys (l₁ ++ l₂) = dkeys l₁ ++ dkeys l₂ := by
  simp [dkeys]

theorem dictInsert_fresh {κ β : Type} [DecidableEq κ] (c : List (κ × β)) (k : κ) (v : β)
    (h : k ∉ dkeys c) : dictInsert c k v = c ++ [(k, v)] := by
  have : alookup c k = none := (alookup_eq_none_iff c k).mpr h
  simp [dictInsert, this]

/-- Updating a dict with an association list whose keys are fresh and
pairwise distinct is plain concatenation. -/
theorem dictUpdate_fresh {κ β : Type} [DecidableEq κ] (other : List (κ × β)) :
    ∀ (c : List (κ × β)), (dkeys other).Nodup → (∀ k ∈ dkeys other, k ∉ dkeys c) →
      dictUpdate c other = c ++ other := by
  induction other with
  | nil => intro c _ _; simp [dictUpdate]
  | cons p rest ih =>
    intro c hn hf
    rw [dkeys_cons] at hn
    have hn2 := List.nodup_cons.mp hn
    have hp : p.1 ∉ dkeys c := hf p.1 (by rw [dkeys_cons]; exact List.mem_cons_self _ _)
    have hstep : dictUpdate c (p :: rest) = dictUpdate (dictInsert c p.1 p.2) rest := rfl
    rw [hstep, dictInsert_fresh c p.1 p.2 hp]
    have hf' : ∀ k ∈ dkeys rest, k ∉ dkeys (c ++ [(p.1, p.2)]) := by
      intro k hk
      rw [dkeys_append]
      intro hmem
      rcases List.mem_append.mp hmem with h | h
      · exact hf k (by rw [dkeys_cons]; exact List.mem_cons_of_mem _ hk) h
      · have hkp : k = p.1 := by simpa [dkeys] using h
        exact hn2.1 (hkp ▸ hk)
    rw [ih (c ++ [(p.1, p.2)]) hn2.2 hf', List.append_assoc]
    simp

/-!
## Sync engine (`BackgroundSyncer.run`, `src/utils.py` lines 78-216)

Phase 3 ("FetchingDetails") iterates `for i in range(0, len(missing_ids), 100)`.
Before each batch the stop flag is checked (`if self._stop_event.is_set(): break`).
A batch builds the 100-id chunk `missing_ids[i : i + 100]` and calls
`batch.execute()`; on success `batch_callback` has stored, for each id whose
individual sub-request succeeded, a `CacheRecord` into the `new_items` buffer,
`scanned_count` grows by the full chunk length, and when `i % 500 == 0` the
buffer is merged into `self.output_cache` (a plain `dict.update`) and the
merged dict is written to disk (`save_cache`); on a batch-level exception the
error is recorded and nothing else changes.  After the loop (normal exhaustion
or `break`) a final merge + save runs, and the status is set to `"Complete"`.
-/

/-- The batch state of the fetch loop: `scanned` is `SYNC_STATE["scanned_count"]`,
`errors` is `SYNC_STATE["errors"]`, `cache` is `self.output_cache`, `buf` is the
`new_items` buffer and `disk` is the content of the persisted cache file. -/
structure S3 (α : Type) where
  scanned : Nat
  errors : List String
  cache : List (α × CacheRecord)
  buf : List (α × CacheRecord)
  disk : List (α × CacheRecord)
deriving Repr

/-- The chunk `missing_ids[i : i + 100]` handed to one Google batch request. -/
def chunkAt {α : Type} (missing : List α) (i : Nat) : List α :=
  (missing.drop i).take 100

/-- The `(id, record)` pairs `batch_callback` stores for one chunk: ids whose
individual sub-request failed (`exception` non-`None`) are skipped. -/
def fetchItems {α : Type} (fetch : α → Option CacheRecord) (chunk : List α) :
    List (α × CacheRecord) :=
  chunk.filterMap (fun mid => (fetch mid).map (fun r => (mid, r)))

/-- One iteration of the phase-3 loop body (after the stop check): the whole
`try`/`except` block for the batch starting at offset `i`. -/
def execBatch {α : Type} [DecidableEq α] (fetch : α → Option CacheRecord) (ok : Bool)
    (i : Nat) (chunk : List α) (st : S3 α) : S3 α :=
  if ok then
    let buf₂ := dictUpdate st.buf (fetchItems fetch chunk)
    let scanned₂ := st.scanned + chunk.length
    if i % 500 = 0 then
      let merged := dictUpdate st.cache buf₂
      ⟨scanned₂, st.errors, merged, [], merged⟩
    else
      ⟨scanned₂, st.errors, st.cache, buf₂, st.disk⟩
  else
    ⟨st.scanned, st.errors ++ ["batch request failed"], st.cache, st.buf, st.disk⟩

/-- Whether the stop flag is observed as set at the check before batch `b`:
the flag is a latch that becomes set just before the check for batch `s`. -/
def stopHit (stopAt : Option Nat) (b : Nat) : Bool :=
  match stopAt with
  | none => false
  | some s => decide (s ≤ b)

/-- The list `[b, b+1, ..., b+n-1]` of batch numbers. -/
def batchNums : Nat → Nat → List Nat
  | _, 0 => []
  | b, n + 1 => b :: batchNums (b + 1) n

/-- The phase-3 loop without the stop check (used to factor the loop: the
stop check only cuts the batch list short, see `runFetchLoop_eq_noStop`). -/
def runBatchesNS {α : Type} [DecidableEq α] (fetch : α → Option CacheRecord)
    (batchOk : Nat → Bool) (missing : List α) : List Nat → S3 α → S3 α
  | [], st => st
  | b :: rest, st =>
      runBatchesNS fetch batchOk missing rest
        (execBatch fetch (batchOk b) (100 * b) (chunkAt missing (100 * b)) st)

/-- The phase-3 loop `for i in range(0, len(missing_ids), BATCH_SIZE)` with its
leading stop check, iterating over batch numbers `b` (`i = 100 * b`). -/
def runFetchLoop {α : Type} [DecidableEq α] (fetch : α → Option CacheRecord)
    (batchOk : Nat → Bool) (stopAt : Option Nat) (missing : List α) :
    List Nat → S3 α → S3 α
  | [], st => st
  | b :: rest, st =>
    if stopHit stopAt b then st
    else
      runFetchLoop fetch batchOk stopAt missing rest
        (execBatch fetch (batchOk b) (100 * b) (chunkAt missing (100 * b)) st)

/-- The state at the top of the loop: counters reset, `self.output_cache` as
loaded in `__init__`, empty buffer, disk still holding the loaded cache. -/
def initS3 {α : Type} (cache0 : List (α × CacheRecord)) : S3 α :=
  ⟨0, [], cache0, [], cache0⟩

/-- `ceil(len / 100)`: how many batches `range(0, len, 100)` produces. -/
def numBatches {α : Type} (missing : List α) : Nat :=
  (missing.length + 99) / 100

/-- The loop state after the first `M` iterations of phase 3 (the observation
point for "the run is killed after `M` batches"). -/
def stateAfterBatches {α : Type} [DecidableEq α] (fetch : α → Option CacheRecord)
    (batchOk : Nat → Bool) (stopAt : Option Nat) (missing : List α)
    (cache0 : List (α × CacheRecord)) (M : Nat) : S3 α :=
  runFetchLoop fetch batchOk stopAt missing (batchNums 0 M) (initS3 cache0)

/-- Phase 2 ("Diffing"): `[msg["id"] for msg in messages if msg["id"] not in
self.output_cache]`. -/
def missingIds {α : Type} [DecidableEq α] (cache0 : List (α × CacheRecord))
    (messages : List α) : List α :=
  messages.filter (fun m => !(alookup cache0 m).isSome)

/-- Outcome of a whole sync run, as observable through `SYNC_STATE` and the
cache file. -/
structure RunResult (α : Type) where
  status : String
  scanned : Nat
  errors : List String
  disk : List (α × CacheRecord)
deriving Repr

/-- `BackgroundSyncer.run` from the end of phase 1 on.  `stopListing` is the
stop-flag check right after the listing loop (its `True` branch sets
`"Stopped by user"` and returns).  Otherwise the missing ids are computed,
phase 3 runs if there are any (followed by the final merge + save), and the
status is set to `"Complete"`. -/
def runSync {α : Type} [DecidableEq α] (fetch : α → Option CacheRecord)
    (batchOk : Nat → Bool) (stopListing : Bool) (stopAt : Option Nat)
    (messages : List α) (cache0 : List (α × CacheRecord)) : RunResult α :=
  if stopListing then
    ⟨"Stopped by user", 0, [], cache0⟩
  else
    let missing := missingIds cache0 messages
    if missing.isEmpty then
      ⟨"Complete", 0, [], cache0⟩
    else
      let st := stateAfterBatches fetch batchOk stopAt missing cache0 (numBatches missing)
      ⟨"Complete", st.scanned, st.errors, dictUpdate st.cache st.buf⟩

theorem batchNums_succ (b n : Nat) :
    batchNums b (n + 1) = batchNums b n ++ [b + n] := by
  induction n generalizing b with
  | zero => simp [batchNums]
  | succ m ih =>
    have h1 : batchNums b (m + 2) = b :: batchNums (b + 1) (m + 1) := rfl
    have h2 : batchNums b (m + 1) = b :: batchNums (b + 1) m := rfl
    rw [h1, ih (b + 1), h2]
    simp [Nat.add_assoc, Nat.add_comm 1 m]

theorem mem_batchNums (n : Nat) : ∀ (a x : Nat), x ∈ batchNums a n ↔ a ≤ x ∧ x < a + n := by
  induction n with
  | zero => intro a x; simp [batchNums]
  | succ m ih =>
    intro a x
    have h1 : batchNums a (m + 1) = a :: batchNums (a + 1) m := rfl
    rw [h1]
    constructor
    · intro h
      rcases List.mem_cons.mp h with h | h
      · omega
      · have := (ih (a + 1) x).mp h; omega
    · intro h
      by_cases hx : x = a
      · subst hx; exact List.mem_cons_self _ _
      · exact List.mem_cons_of_mem _ ((ih (a + 1) x).mpr (by omega))

theorem runBatchesNS_append {α : Type} [DecidableEq α] (fetch : α → Option CacheRecord)
    (batchOk : Nat → Bool) (missing : List α) (bs bs' : List Nat) :
    ∀ st : S3 α, runBatchesNS fetch batchOk missing (bs ++ bs') st =
      runBatchesNS fetch batchOk missing bs' (runBatchesNS fetch batchOk missing bs st) := by
  induction bs with
  | nil => intro st; rfl
  | cons b rest ih => intro st; exact ih _

/-- How many of the first `n` batch checks the stop flag lets through when the
loop starts at batch number `a`. -/
def stopCut (stopAt : Option Nat) (a n : Nat) : Nat :=
  match stopAt with
  | none => n
  | some s => min n (s - a)

/-- The stop check only cuts the processed batch list short: the monitored
loop equals the unmonitored loop on the first `stopCut` batch numbers. -/
theorem runFetchLoop_eq_noStop {α : Type} [DecidableEq α] (fetch : α → Option CacheRecord)
    (batchOk : Nat → Bool) (stopAt : Option Nat) (missing : List α) :
    ∀ (n a : Nat) (st : S3 α),
      runFetchLoop fetch batchOk stopAt missing (batchNums a n) st =
        runBatchesNS fetch batchOk missing (batchNums a (stopCut stopAt a n)) st := by
  intro n
  induction n with
  | zero =>
    intro a st
    cases stopAt <;> simp [stopCut, batchNums, runFetchLoop, runBatchesNS]
  | succ m ih =>
    intro a st
    have h1 : batchNums a (m + 1) = a :: batchNums (a + 1) m := rfl
    rw [h1]
    cases stopAt with
    | none =>
      show (if stopHit none a then st else _) = _
      rw [if_neg (by simp [stopHit])]
      rw [ih (a + 1)]
      simp [stopCut]
      rfl
    | some s =>
      by_cases hs : s ≤ a
      · show (if stopHit (some s) a then st else _) = _
        rw [if_pos (by simp [stopHit, hs])]
        have : stopCut (some s) a (m + 1) = 0 := by simp [stopCut]; omega
        rw [this]
        rfl
      · show (if stopHit (some s) a then st else _) = _
        rw [if_neg (by simp [stopHit]; omega)]
        rw [ih (a + 1)]
        have harith : stopCut (some s) a (m + 1) = stopCut (some s) (a + 1) m + 1 := by
          simp [stopCut]; omega
        rw [harith]
        rfl

/-- `scanned_count` after any run of batches: each batch whose `execute()`
succeeded contributes the full length of its chunk. -/
theorem scanned_runBatchesNS {α : Type} [DecidableEq α] (fetch : α → Option CacheRecord)
    (batchOk : Nat → Bool) (missing : List α) :
    ∀ (bs : List Nat) (st : S3 α),
      (runBatchesNS fetch batchOk missing bs st).scanned =
        st.scanned +
          (bs.map (fun b => if batchOk b then (chunkAt missing (100 * b)).length else 0)).sum := by
  intro bs
  induction bs with
  | nil => intro st; simp [runBatchesNS]
  | cons b rest ih =>
    intro st
    show (runBatchesNS fetch batchOk missing rest _).scanned = _
    rw [ih]
    by_cases hok : batchOk b
    · by_cases hcp : (100 * b) % 500 = 0 <;>
        simp [execBatch, hok, hcp] <;> omega
    · simp [execBatch, hok]

/-- Reference recursion describing the two item pools of phase 3 after `M`
batches: the first component is everything already merged + persisted by the
`i % 500 == 0` checkpoints, the second is the `new_items` buffer. -/
def flushSplit {α : Type} (fetch : α → Option CacheRecord) (batchOk : Nat → Bool)
    (missing : List α) : Nat → List (α × CacheRecord) × List (α × CacheRecord)
  | 0 => ([], [])
  | M + 1 =>
    let FP := flushSplit fetch batchOk missing M
    if batchOk M then
      let buffered := FP.2 ++ fetchItems fetch (chunkAt missing (100 * M))
      if (100 * M) % 500 = 0 then (FP.1 ++ buffered, []) else (FP.1, buffered)
    else FP

/-- All items fetched by the batch-level-successful batches among the first
`M`, in batch order. -/
def okItems {α : Type} (fetch : α → Option CacheRecord) (batchOk : Nat → Bool)
    (missing : List α) (M : Nat) : List (α × CacheRecord) :=
  (((batchNums 0 M).filter (fun b => batchOk b)).map
    (fun b => fetchItems fetch (chunkAt missing (100 * b)))).flatten

theorem flushSplit_join {α : Type} (fetch : α → Option CacheRecord) (batchOk : Nat → Bool)
    (missing : List α) (M : Nat) :
    (flushSplit fetch batchOk missing M).1 ++ (flushSplit fetch batchOk missing M).2 =
      okItems fetch batchOk missing M := by
  induction M with
  | zero => rfl
  | succ m ih =>
    rw [okItems, batchNums_succ, List.filter_append, List.map_append, List.flatten_append]
    by_cases hok : batchOk m
    · by_cases hcp : (100 * m) % 500 = 0
      · simp only [flushSplit, hok, hcp, if_true, List.append_nil]
        rw [← List.append_assoc, ih]
        simp [okItems, hok]
      · simp only [flushSplit, hok, hcp, if_true, if_false]
        rw [← List.append_assoc, ih]
        simp [okItems, hok]
    · simp only [flushSplit, hok, if_false, Bool.false_eq_true]
      rw [ih]
      simp [okItems, hok]

theorem flushSplit_fst_mono {α : Type} (fetch : α → Option CacheRecord)
    (batchOk : Nat → Bool) (missing : List α) (M : Nat) (x : α × CacheRecord)
    (h : x ∈ (flushSplit fetch batchOk missing M).1) :
    x ∈ (flushSplit fetch batchOk missing (M + 1)).1 := by
  by_cases hok : batchOk M
  · by_cases hcp : (100 * M) % 500 = 0
    · simp only [flushSplit, hok, hcp, if_true]
      exact List.mem_append.mpr (Or.inl h)
    · simpa [flushSplit, hok, hcp] using h
  · simpa [flushSplit, hok] using h

theorem flushSplit_fst_le_mono {α : Type} (fetch : α → Option CacheRecord)
    (batchOk : Nat → Bool) (missing : List α) (m M : Nat) (hm : m ≤ M)
    (x : α × CacheRecord) (h : x ∈ (flushSplit fetch batchOk missing m).1) :
    x ∈ (flushSplit fetch batchOk missing M).1 := by
  induction M with
  | zero =>
    have : m = 0 := by omega
    subst this; exact h
  | succ k ih =>
    by_cases hmk : m = k + 1
    · subst hmk; exact h
    · exact flushSplit_fst_mono fetch batchOk missing k x (ih (by omega))

theorem flushSplit_at_checkpoint {α : Type} (fetch : α → Option CacheRecord)
    (batchOk : Nat → Bool) (missing : List α) (c : Nat) (hok : batchOk c)
    (hcp : (100 * c) % 500 = 0) :
    (flushSplit fetch batchOk missing (c + 1)).1 = okItems fetch batchOk missing (c + 1) := by
  have hsnd : (flushSplit fetch batchOk missing (c + 1)).2 = [] := by
    simp [flushSplit, hok, hcp]
  have := flushSplit_join fetch batchOk missing (c + 1)
  rw [hsnd] at this
  simpa using this

theorem mem_fetchItems {α : Type} (fetch : α → Option CacheRecord) (chunk : List α)
    (mid : α) (rec : CacheRecord) (hm : mid ∈ chunk) (hf : fetch mid = some rec) :
    (mid, rec) ∈ fetchItems fetch chunk := by
  exact List.mem_filterMap.mpr ⟨mid, hm, by rw [hf]; rfl⟩

theorem mem_okItems {α : Type} (fetch : α → Option CacheRecord) (batchOk : Nat → Bool)
    (missing : List α) (M b : Nat) (hb : b < M) (hok : batchOk b)
    (x : α × CacheRecord) (hx : x ∈ fetchItems fetch (chunkAt missing (100 * b))) :
    x ∈ okItems fetch batchOk missing M := by
  apply List.mem_flatten.mpr
  refine ⟨fetchItems fetch (chunkAt missing (100 * b)), ?_, hx⟩
  apply List.mem_map_of_mem
  apply List.mem_filter.mpr
  exact ⟨(mem_batchNums M 0 b).mpr (by omega), by simp [hok]⟩

theorem dkeys_fetchItems {α : Type} (fetch : α → Option CacheRecord) (chunk : List α) :
    dkeys (fetchItems fetch chunk) = chunk.filter (fun m => (fetch m).isSome) := by
  induction chunk with
  | nil => rfl
  | cons m rest ih =>
    cases hf : fetch m with
    | none => simp [fetchItems, dkeys, List.filterMap_cons, hf, List.filter_cons] at ih ⊢; exact ih
    | some r => simp [fetchItems, dkeys, List.filterMap_cons, hf, List.filter_cons] at ih ⊢; exact ih

theorem chunkAt_subset_take {α : Type} (missing : List α) (b : Nat) (x : α)
    (h : x ∈ chunkAt missing (100 * b)) : x ∈ missing.take (100 * b + 100) := by
  rw [List.take_add]
  exact List.mem_append.mpr (Or.inr h)

theorem mem_take_mono {α : Type} (l : List α) (m n : Nat) (hmn : m ≤ n) (x : α)
    (h : x ∈ l.take m) : x ∈ l.take n := by
  have hsub : List.Sublist (l.take m) (l.take n) := by
    have := List.take_sublist m (l.take n)
    rwa [List.take_take, Nat.min_eq_left hmn] at this
  exact hsub.subset h

theorem chunkAt_nodup {α : Type} (missing : List α) (hnd : missing.Nodup) (i : Nat) :
    (chunkAt missing i).Nodup :=
  List.Nodup.sublist ((List.take_sublist _ _).trans (List.drop_sublist _ _)) hnd

theorem take_drop_disjoint {α : Type} (missing : List α) (hnd : missing.Nodup) (n : Nat) :
    ∀ x ∈ missing.take n, x ∉ missing.drop n := by
  have h := (List.take_append_drop n missing).symm ▸ hnd
  have := List.nodup_append.mp h
  intro x hx hxd
  exact this.2.2 hx hxd

/-- Both item pools of `flushSplit` stay inside the first `100 * M` missing
ids, with pairwise-distinct keys (assuming the missing ids are distinct). -/
theorem flushSplit_keys {α : Type} (fetch : α → Option CacheRecord) (batchOk : Nat → Bool)
    (missing : List α) (hnd : missing.Nodup) :
    ∀ M : Nat,
      (∀ x ∈ dkeys ((flushSplit fetch batchOk missing M).1 ++
          (flushSplit fetch batchOk missing M).2), x ∈ missing.take (100 * M)) ∧
      (dkeys ((flushSplit fetch batchOk missing M).1 ++
          (flushSplit fetch batchOk missing M).2)).Nodup := by
  intro M
  induction M with
  | zero => simp [flushSplit, dkeys]
  | succ m ih =>
    obtain ⟨ihsub, ihnd⟩ := ih
    have hcomb : (flushSplit fetch batchOk missing (m + 1)).1 ++
        (flushSplit fetch batchOk missing (m + 1)).2 =
        ((flushSplit fetch batchOk missing m).1 ++ (flushSplit fetch batchOk missing m).2) ++
          (if batchOk m then fetchItems fetch (chunkAt missing (100 * m)) else []) := by
      by_cases hok : batchOk m
      · by_cases hcp : (100 * m) % 500 = 0 <;> simp [flushSplit, hok, hcp, List.append_assoc]
      · simp [flushSplit, hok]
    have hchunkd : ∀ k ∈ dkeys (fetchItems fetch (chunkAt missing (100 * m))),
        k ∈ missing.drop (100 * m) := by
      intro k hk
      rw [dkeys_fetchItems] at hk
      exact List.mem_of_mem_take (List.mem_filter.mp hk).1
    have hgrow : (100 : Nat) * m + 100 = 100 * (m + 1) := by ring
    constructor
    · intro x hx
      rw [hcomb, dkeys_append] at hx
      rcases List.mem_append.mp hx with h | h
      · exact mem_take_mono missing _ _ (by omega) x (ihsub x h)
      · by_cases hok : batchOk m
        · rw [if_pos hok] at h
          have hx1 : x ∈ chunkAt missing (100 * m) := by
            rw [dkeys_fetchItems] at h
            exact (List.mem_filter.mp h).1
          rw [← hgrow]
          exact chunkAt_subset_take missing m x hx1
        · rw [if_neg hok] at h
          cases h
    · rw [hcomb, dkeys_append]
      apply List.nodup_append.mpr
      refine ⟨ihnd, ?_, ?_⟩
      · by_cases hok : batchOk m
        · rw [if_pos hok, dkeys_fetchItems]
          exact List.Nodup.filter _ (chunkAt_nodup missing hnd _)
        · simp [hok, dkeys]
      · intro x hx hx2
        have hx1 : x ∈ missing.take (100 * m) := ihsub x hx
        by_cases hok : batchOk m
        · rw [if_pos hok] at hx2
          exact take_drop_disjoint missing hnd (100 * m) x hx1 (hchunkd x hx2)
        · rw [if_neg hok] at hx2
          cases hx2

/-- Characterization of the phase-3 loop state after `M` batches (no stop):
`self.output_cache` and the persisted file both hold the initial cache updated
with every checkpoint-flushed item, and `new_items` holds exactly the items
fetched since the last checkpoint. -/
theorem runBatchesNS_state {α : Type} [DecidableEq α] (fetch : α → Option CacheRecord)
    (batchOk : Nat → Bool) (missing : List α) (cache0 : List (α × CacheRecord))
    (hnd : missing.Nodup) (M : Nat) :
    (runBatchesNS fetch batchOk missing (batchNums 0 M) (initS3 cache0)).cache =
        dictUpdate cache0 (flushSplit fetch batchOk missing M).1 ∧
      (runBatchesNS fetch batchOk missing (batchNums 0 M) (initS3 cache0)).disk =
        dictUpdate cache0 (flushSplit fetch batchOk missing M).1 ∧
      (runBatchesNS fetch batchOk missing (batchNums 0 M) (initS3 cache0)).buf =
        (flushSplit fetch batchOk missing M).2 := by
  induction M with
  | zero => exact ⟨rfl, rfl, rfl⟩
  | succ m ih =>
    obtain ⟨ihc, ihd, ihb⟩ := ih
    rw [batchNums_succ, runBatchesNS_append]
    have hz : (0 + m) = m := by omega
    rw [hz]
    have hsingle : ∀ st : S3 α, runBatchesNS fetch batchOk missing [m] st =
        execBatch fetch (batchOk m) (100 * m) (chunkAt missing (100 * m)) st := fun _ => rfl
    rw [hsingle]
    by_cases hok : batchOk m
    · have hkeys := flushSplit_keys fetch batchOk missing hnd m
      have hnewnd : (dkeys (fetchItems fetch (chunkAt missing (100 * m)))).Nodup := by
        rw [dkeys_fetchItems]
        exact List.Nodup.filter _ (chunkAt_nodup missing hnd _)
      have hfresh : ∀ k ∈ dkeys (fetchItems fetch (chunkAt missing (100 * m))),
          k ∉ dkeys (flushSplit fetch batchOk missing m).2 := by
        intro k hk hkP
        have hk1 : k ∈ chunkAt missing (100 * m) := by
          rw [dkeys_fetchItems] at hk
          exact (List.mem_filter.mp hk).1
        have hk2 : k ∈ missing.drop (100 * m) := List.mem_of_mem_take hk1
        have hk3 : k ∈ missing.take (100 * m) := by
          apply hkeys.1
          rw [dkeys_append]
          exact List.mem_append.mpr (Or.inr hkP)
        exact take_drop_disjoint missing hnd (100 * m) k hk3 hk2
      have hbuf2 : dictUpdate
          (runBatchesNS fetch batchOk missing (batchNums 0 m) (initS3 cache0)).buf
          (fetchItems fetch (chunkAt missing (100 * m))) =
          (flushSplit fetch batchOk missing m).2 ++
            fetchItems fetch (chunkAt missing (100 * m)) := by
        rw [ihb]
        exact dictUpdate_fresh _ _ hnewnd hfresh
      by_cases hcp : (100 * m) % 500 = 0
      · simp only [execBatch, hok, hcp, if_true]
        have hfst : (flushSplit fetch batchOk missing (m + 1)).1 =
            (flushSplit fetch batchOk missing m).1 ++
              ((flushSplit fetch batchOk missing m).2 ++
                fetchItems fetch (chunkAt missing (100 * m))) := by
          simp [flushSplit, hok, hcp]
        have hsnd : (flushSplit fetch batchOk missing (m + 1)).2 = [] := by
          simp [flushSplit, hok, hcp]
        rw [hfst, hsnd, hbuf2, ihc, ← dictUpdate_append]
        exact ⟨rfl, rfl, rfl⟩
      · simp only [execBatch, hok, hcp, if_true, if_false]
        have hfst : (flushSplit fetch batchOk missing (m + 1)).1 =
            (flushSplit fetch batchOk missing m).1 := by
          simp [flushSplit, hok, hcp]
        have hsnd : (flushSplit fetch batchOk missing (m + 1)).2 =
            (flushSplit fetch batchOk missing m).2 ++
              fetchItems fetch (chunkAt missing (100 * m)) := by
          simp [flushSplit, hok, hcp]
        rw [hfst, hsnd, hbuf2, ihc, ihd]
        exact ⟨rfl, rfl, rfl⟩
    · simp only [execBatch, hok, if_false, Bool.false_eq_true]
      have hfs : flushSplit fetch batchOk missing (m + 1) =
          flushSplit fetch batchOk missing m := by
        simp [flushSplit, hok]
      rw [hfs]
      exact ⟨ihc, ihd, ihb⟩

theorem okItems_keys_nodup {α : Type} (fetch : α → Option CacheRecord) (batchOk : Nat → Bool)
    (missing : List α) (hnd : missing.Nodup) (M : Nat) :
    (dkeys (okItems fetch batchOk missing M)).Nodup := by
  rw [← flushSplit_join]
  exact (flushSplit_keys fetch batchOk missing hnd M).2

theorem okItems_keys_sub {α : Type} (fetch : α → Option CacheRecord) (batchOk : Nat → Bool)
    (missing : List α) (hnd : missing.Nodup) (M : Nat) :
    ∀ x ∈ dkeys (okItems fetch batchOk missing M), x ∈ missing.take (100 * M) := by
  rw [← flushSplit_join]
  exact (flushSplit_keys fetch batchOk missing hnd M).1

/-- Joining the consecutive 100-id chunks of the first `M` batches gives the
first `100 * M` missing ids. -/
theorem chunks_flatten {α : Type} (missing : List α) (M : Nat) :
    ((batchNums 0 M).map (fun b => chunkAt missing (100 * b))).flatten =
      missing.take (100 * M) := by
  induction M with
  | zero => rfl
  | succ m ih =>
    rw [batchNums_succ, List.map_append, List.flatten_append]
    have hz : (0 + m) = m := by omega
    rw [hz]
    have hgrow : (100 : Nat) * (m + 1) = 100 * m + 100 := by ring
    rw [hgrow, List.take_add, ← ih]
    simp [chunkAt]

theorem mem_take_imp_chunk {α : Type} (missing : List α) (M : Nat) (x : α)
    (h : x ∈ missing.take (100 * M)) : ∃ b, b < M ∧ x ∈ chunkAt missing (100 * b) := by
  induction M with
  | zero => simp at h
  | succ m ih =>
    have hgrow : (100 : Nat) * (m + 1) = 100 * m + 100 := by ring
    rw [hgrow, List.take_add] at h
    rcases List.mem_append.mp h with h1 | h1
    · obtain ⟨b, hb, hmem⟩ := ih h1
      exact ⟨b, by omega, hmem⟩
    · exact ⟨m, by omega, h1⟩

theorem length_filter_not_compl {α : Type} (p : α → Bool) (l : List α) :
    (l.filter (fun a => !(p a))).length = l.length - (l.filter p).length := by
  induction l with
  | nil => rfl
  | cons a t ih =>
    have hle : (t.filter p).length ≤ t.length := List.length_filter_le _ _
    by_cases h : p a <;> simp [List.filter_cons, h, ih] <;> omega

/-- Final run characterization for a run that reaches phase 3: the persisted
cache is the loaded cache updated with every item fetched by the executed,
batch-level-successful batches, and the status ends as `"Complete"` whether or
not the loop was cut short by the stop flag. -/
theorem runSync_disk {α : Type} [DecidableEq α] (fetch : α → Option CacheRecord)
    (batchOk : Nat → Bool) (stopAt : Option Nat) (messages : List α)
    (cache0 : List (α × CacheRecord)) (hnd : (missingIds cache0 messages).Nodup)
    (hne : missingIds cache0 messages ≠ []) :
    (runSync fetch batchOk false stopAt messages cache0).disk =
      dictUpdate cache0 (okItems fetch batchOk (missingIds cache0 messages)
        (stopCut stopAt 0 (numBatches (missingIds cache0 messages)))) ∧
    (runSync fetch batchOk false stopAt messages cache0).status = "Complete" := by
  have hemp : (missingIds cache0 messages).isEmpty = false := by
    cases hmi : missingIds cache0 messages with
    | nil => exact absurd hmi hne
    | cons a t => simp [List.isEmpty]
  have hrun : runSync fetch batchOk false stopAt messages cache0 =
      ⟨"Complete",
        (stateAfterBatches fetch batchOk stopAt (missingIds cache0 messages) cache0
          (numBatches (missingIds cache0 messages))).scanned,
        (stateAfterBatches fetch batchOk stopAt (missingIds cache0 messages) cache0
          (numBatches (missingIds cache0 messages))).errors,
        dictUpdate
          (stateAfterBatches fetch batchOk stopAt (missingIds cache0 messages) cache0
            (numBatches (missingIds cache0 messages))).cache
          (stateAfterBatches fetch batchOk stopAt (missingIds cache0 messages) cache0
            (numBatches (missingIds cache0 messages))).buf⟩ := by
    rw [runSync, if_neg (by simp)]
    simp only [hemp, Bool.false_eq_true, if_false]
  rw [hrun]
  refine ⟨?_, rfl⟩
  show dictUpdate _ _ = _
  rw [stateAfterBatches, runFetchLoop_eq_noStop]
  obtain ⟨hc, _, hb⟩ := runBatchesNS_state fetch batchOk (missingIds cache0 messages) cache0
    hnd (stopCut stopAt 0 (numBatches (missingIds cache0 messages)))
  rw [hc, hb, ← dictUpdate_append, flushSplit_join]

theorem alookup_disk_of_mem_okItems {α : Type} [DecidableEq α]
    (fetch : α → Option CacheRecord) (batchOk : Nat → Bool) (missing : List α)
    (cache0 : List (α × CacheRecord)) (hnd : missing.Nodup) (M : Nat) (mid : α)
    (rec : CacheRecord) (hmem : (mid, rec) ∈ okItems fetch batchOk missing M) :
    alookup (dictUpdate cache0 (okItems fetch batchOk missing M)) mid = some rec := by
  rw [alookup_dictUpdate,
    alookup_reverse_eq_some_of_nodup _ _ _ (okItems_keys_nodup fetch batchOk missing hnd M)
      hmem]
  rfl

/-- C1 (amended): if the stop signal is observed during `FetchingDetails`
(first observed at the check before batch `s`), the run merges and persists
every item fetched by the executed batch-level-successful batches — but its
final status is `"Complete"`, not the stopped status (`"Stopped by user"` is
only ever set by the check at the end of the listing phase). -/
theorem c1_amended {α : Type} [DecidableEq α] (fetch : α → Option CacheRecord)
    (batchOk : Nat → Bool) (s : Nat) (messages : List α)
    (cache0 : List (α × CacheRecord)) (hnd : messages.Nodup)
    (hne : missingIds cache0 messages ≠ []) :
    (runSync fetch batchOk false (some s) messages cache0).status = "Complete" ∧
    ∀ b, b < s → b < numBatches (missingIds cache0 messages) → batchOk b = true →
      ∀ mid rec, mid ∈ chunkAt (missingIds cache0 messages) (100 * b) →
        fetch mid = some rec →
          alookup (runSync fetch batchOk false (some s) messages cache0).disk mid =
            some rec := by
  have hndm : (missingIds cache0 messages).Nodup := List.Nodup.filter _ hnd
  obtain ⟨hdisk, hstat⟩ :=
    runSync_disk fetch batchOk (some s) messages cache0 hndm hne
  refine ⟨hstat, ?_⟩
  intro b hbs hbn hok mid rec hmid hf
  rw [hdisk]
  apply alookup_disk_of_mem_okItems fetch batchOk _ cache0 hndm
  apply mem_okItems fetch batchOk _ _ b ?_ hok
  · exact mem_fetchItems fetch _ mid rec hmid hf
  · show b < stopCut (some s) 0 (numBatches (missingIds cache0 messages))
    simp only [stopCut]
    omega

/-- C2 (confirmed): phase 2 selects exactly the listed ids that are not keys
of the loaded cache (`N - K` of them when `K` of the `N` listed ids are
cached); phase 3 partitions precisely these ids into chunks of at most 100,
never touching a cached id; and a rerun over an unchanged listing after a
fully successful run finds nothing left to fetch. -/
theorem c2_incrementality {α : Type} [DecidableEq α] (fetch : α → Option CacheRecord)
    (batchOk : Nat → Bool) (messages : List α) (cache0 : List (α × CacheRecord))
    (hnd : messages.Nodup) :
    (missingIds cache0 messages).length =
        messages.length - (messages.filter (fun m => (alookup cache0 m).isSome)).length ∧
    ((batchNums 0 (numBatches (missingIds cache0 messages))).map
        (fun b => chunkAt (missingIds cache0 messages) (100 * b))).flatten =
      missingIds cache0 messages ∧
    (∀ b, (chunkAt (missingIds cache0 messages) (100 * b)).length ≤ 100) ∧
    (∀ mid ∈ missingIds cache0 messages, alookup cache0 mid = none) ∧
    ((∀ b, batchOk b = true) → (∀ m, (fetch m).isSome) →
      missingIds (runSync fetch batchOk false none messages cache0).disk messages = []) := by
  have htake : (missingIds cache0 messages).take
      (100 * numBatches (missingIds cache0 messages)) = missingIds cache0 messages := by
    apply List.take_of_length_le
    show (missingIds cache0 messages).length ≤
      100 * (((missingIds cache0 messages).length + 99) / 100)
    omega
  refine ⟨?_, ?_, ?_, ?_, ?_⟩
  · exact length_filter_not_compl (fun m => (alookup cache0 m).isSome) messages
  · rw [chunks_flatten, htake]
  · intro b
    simp [chunkAt, List.length_take]
  · intro mid hmid
    have := (List.mem_filter.mp hmid).2
    rw [alookup_eq_none_iff, ← alookup_isSome_iff]
    simp at this
    simp [this]
  · intro hall hfetch
    cases hmiss : missingIds cache0 messages with
    | nil =>
      have hdisk : (runSync fetch batchOk false none messages cache0).disk = cache0 := by
        rw [runSync, if_neg (by simp)]
        simp [hmiss]
      rw [hdisk, ← hmiss]
    | cons a t =>
      have hne : missingIds cache0 messages ≠ [] := by rw [hmiss]; simp
      have hndm : (missingIds cache0 messages).Nodup := List.Nodup.filter _ hnd
      obtain ⟨hdisk, _⟩ := runSync_disk fetch batchOk none messages cache0 hndm hne
      show List.filter _ messages = []
      apply List.filter_eq_nil_iff.mpr
      intro m hm
      have hsome : (alookup (runSync fetch batchOk false none messages cache0).disk m).isSome := by
        rw [hdisk, alookup_dictUpdate]
        by_cases hmc : (alookup cache0 m).isSome
        · cases alookup (okItems fetch batchOk (missingIds cache0 messages)
              (stopCut none 0 (numBatches (missingIds cache0 messages)))).reverse m with
          | none => simpa using hmc
          | some v => simp
        · have hmm : m ∈ missingIds cache0 messages := by
            apply List.mem_filter.mpr
            refine ⟨hm, ?_⟩
            simp at hmc
            simp [hmc]
          have hmt : m ∈ (missingIds cache0 messages).take
              (100 * numBatches (missingIds cache0 messages)) := by
            rw [htake]; exact hmm
          obtain ⟨b, hb, hbm⟩ := mem_take_imp_chunk _ _ _ hmt
          obtain ⟨rec, hrec⟩ := Option.isSome_iff_exists.mp (hfetch m)
          have hok : (m, rec) ∈ okItems fetch batchOk (missingIds cache0 messages)
              (stopCut none 0 (numBatches (missingIds cache0 messages))) := by
            apply mem_okItems fetch batchOk _ _ b hb (hall b)
            exact mem_fetchItems fetch _ m rec hbm hrec
          have hkey : m ∈ dkeys (okItems fetch batchOk (missingIds cache0 messages)
              (stopCut none 0 (numBatches (missingIds cache0 messages)))).reverse := by
            rw [dkeys_reverse, List.mem_reverse]
            exact List.mem_map_of_mem Prod.fst hok
          have := (alookup_isSome_iff _ m).mpr hkey
          cases halo : alookup (okItems fetch batchOk (missingIds cache0 messages)
              (stopCut none 0 (numBatches (missingIds cache0 messages)))).reverse m with
          | none => rw [halo] at this; simp at this
          | some v => simp [halo]
      simp [hsome]

/-- C3 (amended): during `FetchingDetails` the buffer is merged and persisted
by the batches satisfying `i % 500 == 0`, i.e. after batches 1, 6, 11, ...
(1-indexed) — not after every block of 5 batches.  Consequently, after `M`
completed batch iterations the persisted cache contains every record fetched
by a successful batch `b ≤ c` for any successful checkpoint batch `c < M`
(`c % 5 = 0`, 0-indexed), and contains no record from a batch that was never
started. -/
theorem c3_amended {α : Type} [DecidableEq α] (fetch : α → Option CacheRecord)
    (batchOk : Nat → Bool) (missing : List α) (cache0 : List (α × CacheRecord))
    (hnd : missing.Nodup) (M : Nat) :
    (∀ c, c < M → batchOk c = true → c % 5 = 0 →
      ∀ b, b ≤ c → batchOk b = true →
        ∀ mid rec, mid ∈ chunkAt missing (100 * b) → fetch mid = some rec →
          alookup (stateAfterBatches fetch batchOk none missing cache0 M).disk mid =
            some rec) ∧
    (∀ mid, (alookup (stateAfterBatches fetch batchOk none missing cache0 M).disk mid).isSome →
      (alookup cache0 mid).isSome ∨ ∃ b, b < M ∧ mid ∈ chunkAt missing (100 * b)) := by
  have hcut : stopCut none 0 M = M := rfl
  obtain ⟨hc, hd, hb⟩ := runBatchesNS_state fetch batchOk missing cache0 hnd M
  have hdisk : (stateAfterBatches fetch batchOk none missing cache0 M).disk =
      dictUpdate cache0 (flushSplit fetch batchOk missing M).1 := by
    rw [stateAfterBatches, runFetchLoop_eq_noStop, hcut]
    exact hd
  have hFnd : (dkeys (flushSplit fetch batchOk missing M).1).Nodup := by
    have := (flushSplit_keys fetch batchOk missing hnd M).2
    rw [dkeys_append] at this
    exact (List.nodup_append.mp this).1
  constructor
  · intro c hcM hcok hc5 b hbc hbok mid rec hmid hf
    have hcp : (100 * c) % 500 = 0 := by omega
    have hmem : (mid, rec) ∈ (flushSplit fetch batchOk missing M).1 := by
      apply flushSplit_fst_le_mono fetch batchOk missing (c + 1) M (by omega)
      rw [flushSplit_at_checkpoint fetch batchOk missing c hcok hcp]
      apply mem_okItems fetch batchOk missing (c + 1) b (by omega) hbok
      exact mem_fetchItems fetch _ mid rec hmid hf
    rw [hdisk, alookup_dictUpdate, alookup_reverse_eq_some_of_nodup _ _ _ hFnd hmem]
    rfl
  · intro mid hm
    rw [hdisk, alookup_dictUpdate] at hm
    cases halo : alookup (flushSplit fetch batchOk missing M).1.reverse mid with
    | some v =>
      have hkey : mid ∈ dkeys (flushSplit fetch batchOk missing M).1 := by
        have : mid ∈ dkeys (flushSplit fetch batchOk missing M).1.reverse :=
          (alookup_isSome_iff _ mid).mp (by rw [halo]; rfl)
        rw [dkeys_reverse, List.mem_reverse] at this
        exact this
      have hkey2 : mid ∈ dkeys ((flushSplit fetch batchOk missing M).1 ++
          (flushSplit fetch batchOk missing M).2) := by
        rw [dkeys_append]
        exact List.mem_append.mpr (Or.inl hkey)
      have htk := (flushSplit_keys fetch batchOk missing hnd M).1 mid hkey2
      exact Or.inr (mem_take_imp_chunk missing M mid htk)
    | none =>
      rw [halo] at hm
      simp at hm
      exact Or.inl hm

/-- C7 (amended): after any `M` iterations of the detail-fetch loop,
`scanned_count` equals the total length of the chunks of those batches whose
batch-level `execute()` succeeded — including ids whose individual
sub-request failed (they are counted but never stored) and ids still sitting
in the `new_items` buffer (counted before being merged into the cache). -/
theorem c7_amended {α : Type} [DecidableEq α] (fetch : α → Option CacheRecord)
    (batchOk : Nat → Bool) (missing : List α) (cache0 : List (α × CacheRecord)) (M : Nat) :
    (stateAfterBatches fetch batchOk none missing cache0 M).scanned =
      ((batchNums 0 M).map
        (fun b => if batchOk b then (chunkAt missing (100 * b)).length else 0)).sum := by
  have hcut : stopCut none 0 M = M := rfl
  rw [stateAfterBatches, runFetchLoop_eq_noStop, hcut, scanned_runBatchesNS]
  simp [initS3]

/-- A concrete record used by the concrete runs below. -/
def rec0 : CacheRecord := ⟨"x@example.com", "X", 1000, []⟩

/-- C1 (counterexample to the claim as stated): a run whose stop signal is
observed during `FetchingDetails` (before batch 0, with one pending batch)
finishes with status `"Complete"`, not the stopped status `"Stopped by
user"` — the code sets `"Complete"` unconditionally after the fetch loop,
whether or not it was left via the cancellation `break`. -/
theorem c1_counterexample :
    missingIds ([] : List (Nat × CacheRecord)) [0] ≠ [] ∧
    0 < numBatches (missingIds ([] : List (Nat × CacheRecord)) [0]) ∧
    (runSync (fun _ => some rec0) (fun _ => true) false (some 0) [0]
        ([] : List (Nat × CacheRecord))).status ≠ "Stopped by user" := by
  refine ⟨by decide, by decide, by decide⟩

theorem c1_witness :
    ([0] : List Nat).Nodup ∧
    missingIds ([] : List (Nat × CacheRecord)) [0] ≠ [] ∧
    ((runSync (fun _ => some rec0) (fun _ => true) false (some 1) [0]
        ([] : List (Nat × CacheRecord))).status = "Complete" ∧
      ∀ b, b < 1 → b < numBatches (missingIds ([] : List (Nat × CacheRecord)) [0]) →
        true = true →
        ∀ mid rec, mid ∈ chunkAt (missingIds ([] : List (Nat × CacheRecord)) [0]) (100 * b) →
          some rec0 = some rec →
            alookup (runSync (fun _ => some rec0) (fun _ => true) false (some 1) [0]
              ([] : List (Nat × CacheRecord))).disk mid = some rec) :=
  ⟨by decide, by decide,
    c1_amended (fun _ => some rec0) (fun _ => true) 1 [0] [] (by decide) (by decide)⟩

theorem c2_witness :
    ([0, 1] : List Nat).Nodup ∧
    ((missingIds [(0, rec0)] [0, 1]).length =
        ([0, 1] : List Nat).length -
          (([0, 1] : List Nat).filter (fun m => (alookup [(0, rec0)] m).isSome)).length ∧
      ((batchNums 0 (numBatches (missingIds [(0, rec0)] [0, 1]))).map
          (fun b => chunkAt (missingIds [(0, rec0)] [0, 1]) (100 * b))).flatten =
        missingIds [(0, rec0)] [0, 1] ∧
      (∀ b, (chunkAt (missingIds [(0, rec0)] [0, 1]) (100 * b)).length ≤ 100) ∧
      (∀ mid ∈ missingIds [(0, rec0)] [0, 1], alookup [(0, rec0)] mid = none) ∧
      ((∀ b : Nat, true = true) → (∀ m : Nat, (some rec0).isSome) →
        missingIds (runSync (fun _ => some rec0) (fun _ => true) false none [0, 1]
          [(0, rec0)]).disk [0, 1] = [])) :=
  ⟨by decide, c2_incrementality (fun _ => some rec0) (fun _ => true) [0, 1] [(0, rec0)]
    (by decide)⟩

set_option maxRecDepth 40000 in
/-- C3 (counterexample to the claim as stated): with 501 missing ids
(6 batches) and every remote call succeeding, killing the run after `M = 5`
completed batches leaves a persisted cache that does not contain id 450 —
a record of batch 5 of the run (0-indexed batch 4), although under "merge and
persist after every 5 batches" the checkpoint group of batches 1-5 was
complete and its records should all have been persisted.  The code's only
checkpoint so far was at `i = 0` (after the first batch), so only ids 0-99
are on disk. -/
theorem c3_counterexample :
    5 < numBatches (List.range 501) ∧
    (450 : Nat) ∈ chunkAt (List.range 501) (100 * 4) ∧
    alookup (stateAfterBatches (fun _ => some rec0) (fun _ => true) none (List.range 501)
        ([] : List (Nat × CacheRecord)) 5).disk 450 = none := by
  refine ⟨by decide, by decide, by decide⟩

theorem c3_witness :
    ([0] : List Nat).Nodup ∧
    ((∀ c, c < 1 → true = true → c % 5 = 0 →
      ∀ b, b ≤ c → true = true →
        ∀ mid rec, mid ∈ chunkAt [0] (100 * b) → some rec0 = some rec →
          alookup (stateAfterBatches (fun _ => some rec0) (fun _ => true) none [0]
            ([] : List (Nat × CacheRecord)) 1).disk mid = some rec) ∧
    (∀ mid, (alookup (stateAfterBatches (fun _ => some rec0) (fun _ => true) none [0]
        ([] : List (Nat × CacheRecord)) 1).disk mid).isSome →
      (alookup ([] : List (Nat × CacheRecord)) mid).isSome ∨
        ∃ b, b < 1 ∧ mid ∈ chunkAt [0] (100 * b))) :=
  ⟨by decide, c3_amended (fun _ => some rec0) (fun _ => true) [0] [] (by decide) 1⟩

set_option maxRecDepth 40000 in
/-- C7 (counterexample to the claim as stated): one batch of 100 ids executes,
the sub-request for id 7 fails, and the checkpoint at `i = 0` flushes the
buffer.  `scanned_count` is 100, but only 99 ids have had their details
fetched and merged into the cache — the count is incremented by the full
chunk length regardless of per-id failures. -/
theorem c7_counterexample :
    (stateAfterBatches (fun n => if n = 7 then none else some rec0) (fun _ => true) none
        (List.range 100) ([] : List (Nat × CacheRecord)) 1).scanned = 100 ∧
    (stateAfterBatches (fun n => if n = 7 then none else some rec0) (fun _ => true) none
        (List.range 100) ([] : List (Nat × CacheRecord)) 1).cache.length = 99 ∧
    (stateAfterBatches (fun n => if n = 7 then none else some rec0) (fun _ => true) none
        (List.range 100) ([] : List (Nat × CacheRecord)) 1).buf = [] := by
  refine ⟨by decide, by decide, by decide⟩

/-!
## Deletion coordinator (`delete_messages`, `src/utils.py` lines 355-394)

`delete_messages` returns 0 immediately on an empty id list.  Otherwise it
walks `range(0, len(message_ids), 1000)`; for each slice of up to 1000 ids it
issues one `batchModify` call and, only if that call did not raise, extends
`cleaned_ids` with the whole slice.  After the loop, only if `cleaned_ids` is
non-empty, it loads the cache, `del`s every cleaned id present, and saves
once.  The per-batch remote outcome is the oracle `ok : Nat → Bool` (indexed
by batch number `b`, slice `message_ids[1000*b : 1000*b + 1000]`).
-/

/-- The slice `message_ids[1000*b : 1000*b + 1000]` of one `batchModify`
call. -/
def chunk1000 {α : Type} (ids : List α) (b : Nat) : List α :=
  (ids.drop (1000 * b)).take 1000

/-- `ceil(len / 1000)`: the number of slices `range(0, len, 1000)` yields. -/
def numBatches1000 {α : Type} (ids : List α) : Nat :=
  (ids.length + 999) / 1000

/-- `cleaned_ids` after the deletion loop: the concatenation of every slice
whose `batchModify` call succeeded, in order. -/
def cleanedIds {α : Type} (ok : Nat → Bool) (ids : List α) : List α :=
  (batchNums 0 (numBatches1000 ids)).foldl
    (fun acc b => if ok b then acc ++ chunk1000 ids b else acc) []

/-- Observable outcome of `delete_messages`: the returned count, the cache
file content afterwards, and how many times `save_cache` ran. -/
structure DeleteResult (α : Type) where
  count : Nat
  disk : List (α × CacheRecord)
  saves : Nat
deriving Repr

/-- `delete_messages(credentials, message_ids)` over a loaded cache `cache`:
trash every id in batches of at most 1000, then remove the successfully
trashed ids from the cache (`if mid in cache: del cache[mid]`) and persist
once — but only when at least one batch succeeded. -/
def delete_messages {α : Type} [DecidableEq α] (ok : Nat → Bool)
    (cache : List (α × CacheRecord)) (message_ids : List α) : DeleteResult α :=
  if message_ids.isEmpty then
    ⟨0, cache, 0⟩
  else
    let cleaned := cleanedIds ok message_ids
    if cleaned.isEmpty then
      ⟨cleaned.length, cache, 0⟩
    else
      ⟨cleaned.length,
        cleaned.foldl
          (fun c mid =>
            if (alookup c mid).isSome then c.filter (fun p => !(decide (p.1 = mid))) else c)
          cache,
        1⟩

theorem alookup_filter_ne {α : Type} [DecidableEq α] (c : List (α × CacheRecord)) (mid k : α) :
    alookup (c.filter (fun p => !(decide (p.1 = mid)))) k =
      if k = mid then none else alookup c k := by
  induction c with
  | nil => by_cases h : k = mid <;> simp [alookup, h]
  | cons p rest ih =>
    by_cases h1 : p.1 = mid
    · by_cases h2 : k = mid
      · subst h2
        simpa [List.filter_cons, h1] using ih
      · have hpk : ¬ p.1 = k := by rw [h1]; intro hh; exact h2 hh.symm
        have hmk : ¬ mid = k := by rw [← h1]; exact hpk
        simp [List.filter_cons, h1, alookup, hpk, hmk, ih, h2]
    · by_cases h2 : p.1 = k
      · have hkm : ¬ k = mid := by rw [← h2]; exact h1
        simp [List.filter_cons, h1, alookup, h2, hkm]
      · simp [List.filter_cons, h1, alookup, h2, ih]

/-- Folding the `del` loop over any id list `S`: a key ends up absent iff it
is in `S`, and every other key keeps its value. -/
theorem alookup_eraseFold {α : Type} [DecidableEq α] (S : List α) :
    ∀ (cache : List (α × CacheRecord)) (k : α),
      alookup (S.foldl
        (fun c mid =>
          if (alookup c mid).isSome then c.filter (fun p => !(decide (p.1 = mid))) else c)
        cache) k =
      if k ∈ S then none else alookup cache k := by
  induction S with
  | nil => intro cache k; simp
  | cons mid rest ih =>
    intro cache k
    have hstep : ((mid :: rest).foldl
        (fun c mid =>
          if (alookup c mid).isSome then c.filter (fun p => !(decide (p.1 = mid))) else c)
        cache) = (rest.foldl
        (fun c mid =>
          if (alookup c mid).isSome then c.filter (fun p => !(decide (p.1 = mid))) else c)
        (if (alookup cache mid).isSome then cache.filter (fun p => !(decide (p.1 = mid)))
          else cache)) := rfl
    rw [hstep, ih]
    by_cases hmem : k ∈ rest
    · simp [hmem]
    · by_cases hkm : k = mid
      · subst hkm
        simp [hmem]
        by_cases hs : (alookup cache k).isSome
        · rw [if_pos hs, alookup_filter_ne]
          simp
        · rw [if_neg hs]
          cases ha : alookup cache k with
          | none => rfl
          | some v => rw [ha] at hs; simp at hs
      · have : ¬ k ∈ mid :: rest := by
          intro hh
          rcases List.mem_cons.mp hh with hh | hh
          · exact hkm hh
          · exact hmem hh
        simp only [this, if_false, hmem]
        by_cases hs : (alookup cache mid).isSome
        · rw [if_pos hs, alookup_filter_ne, if_neg hkm]
        · rw [if_neg hs]

theorem foldl_append_filter {α : Type} (ok : Nat → Bool) (f : Nat → List α) :
    ∀ (bs : List Nat) (init : List α),
      bs.foldl (fun acc b => if ok b then acc ++ f b else acc) init =
        init ++ ((bs.filter (fun b => ok b)).map f).flatten := by
  intro bs
  induction bs with
  | nil => intro init; simp
  | cons b rest ih =>
    intro init
    by_cases h : ok b <;> simp [List.filter_cons, h, ih, List.append_assoc]

theorem cleanedIds_eq_flatten {α : Type} (ok : Nat → Bool) (ids : List α) :
    cleanedIds ok ids =
      (((batchNums 0 (numBatches1000 ids)).filter (fun b => ok b)).map
        (chunk1000 ids)).flatten := by
  rw [cleanedIds, foldl_append_filter]
  simp

theorem sum_filter_eq_sum_if (ok : Nat → Bool) (g : Nat → Nat) :
    ∀ bs : List Nat,
      ((bs.filter (fun b => ok b)).map g).sum =
        (bs.map (fun b => if ok b then g b else 0)).sum := by
  intro bs
  induction bs with
  | nil => rfl
  | cons b rest ih =>
    by_cases h : ok b <;> simp [List.filter_cons, h, ih]

theorem cleanedIds_length {α : Type} (ok : Nat → Bool) (ids : List α) :
    (cleanedIds ok ids).length =
      ((batchNums 0 (numBatches1000 ids)).map
        (fun b => if ok b then (chunk1000 ids b).length else 0)).sum := by
  rw [cleanedIds_eq_flatten, List.length_flatten, ← sum_filter_eq_sum_if, List.map_map]
  rfl

theorem mem_cleanedIds {α : Type} (ok : Nat → Bool) (ids : List α) (k : α)
    (h : k ∈ cleanedIds ok ids) : ∃ b, ok b = true ∧ k ∈ chunk1000 ids b := by
  rw [cleanedIds_eq_flatten] at h
  obtain ⟨s, hs, hk⟩ := List.mem_flatten.mp h
  obtain ⟨b, hb, rfl⟩ := List.mem_map.mp hs
  exact ⟨b, (List.mem_filter.mp hb).2, hk⟩

/-- C4 (amended): the deletion operation partitions the ids into slices of at
most 1000; its return value counts exactly the ids of the slices whose remote
`batchModify` call succeeded; exactly those ids are removed from the cache
(every other key keeps its record); and the cache is persisted once after all
batches — provided at least one slice succeeded.  When every slice fails (or
the id list is empty) the cache is not loaded or persisted at all (zero
saves), which is the one deviation from the claim as stated. -/
theorem c4_amended {α : Type} [DecidableEq α] (ok : Nat → Bool)
    (cache : List (α × CacheRecord)) (message_ids : List α) :
    (delete_messages ok cache message_ids).count =
        ((batchNums 0 (numBatches1000 message_ids)).map
          (fun b => if ok b then (chunk1000 message_ids b).length else 0)).sum ∧
    (∀ k, k ∈ cleanedIds ok message_ids →
      alookup (delete_messages ok cache message_ids).disk k = none) ∧
    (∀ k, k ∉ cleanedIds ok message_ids →
      alookup (delete_messages ok cache message_ids).disk k = alookup cache k) ∧
    (∀ k ∈ cleanedIds ok message_ids, ∃ b, ok b = true ∧ k ∈ chunk1000 message_ids b) ∧
    (∀ b, (chunk1000 message_ids b).length ≤ 1000) ∧
    (delete_messages ok cache message_ids).saves =
      (if (cleanedIds ok message_ids).isEmpty then 0 else 1) := by
  have hchunklen : ∀ b, (chunk1000 message_ids b).length ≤ 1000 := by
    intro b
    simp [chunk1000, List.length_take]
  by_cases hids : message_ids.isEmpty
  · have hnil : message_ids = [] := by
      cases message_ids with
      | nil => rfl
      | cons a t => simp [List.isEmpty] at hids
    subst hnil
    have h0 : numBatches1000 ([] : List α) = 0 := by
      simp only [numBatches1000, List.length_nil]
    have hcl : cleanedIds ok ([] : List α) = [] := by
      rw [cleanedIds, h0]
      rfl
    refine ⟨?_, ?_, ?_, ?_, hchunklen, ?_⟩
    · simp [delete_messages, numBatches1000, batchNums]
    · intro k hk; rw [hcl] at hk; cases hk
    · intro k _; simp [delete_messages]
    · intro k hk; rw [hcl] at hk; cases hk
    · simp [delete_messages, hcl]
  · have hdm : delete_messages ok cache message_ids =
        (if (cleanedIds ok message_ids).isEmpty then
          ⟨(cleanedIds ok message_ids).length, cache, 0⟩
        else
          ⟨(cleanedIds ok message_ids).length,
            (cleanedIds ok message_ids).foldl
              (fun c mid =>
                if (alookup c mid).isSome then c.filter (fun p => !(decide (p.1 = mid)))
                else c)
              cache,
            1⟩ : DeleteResult α) := by
      rw [delete_messages, if_neg (by simp [hids])]
    by_cases hcl : (cleanedIds ok message_ids).isEmpty
    · have hclnil : cleanedIds ok message_ids = [] := by
        cases hc : cleanedIds ok message_ids with
        | nil => rfl
        | cons a t => rw [hc] at hcl; simp [List.isEmpty] at hcl
      rw [hdm, if_pos hcl]
      refine ⟨?_, ?_, ?_, ?_, hchunklen, ?_⟩
      · rw [← cleanedIds_length]
      · intro k hk; rw [hclnil] at hk; cases hk
      · intro k _; rfl
      · intro k hk; exact mem_cleanedIds ok message_ids k hk
      · rw [if_pos hcl]
    · rw [hdm, if_neg hcl]
      refine ⟨?_, ?_, ?_, ?_, hchunklen, ?_⟩
      · rw [← cleanedIds_length]
      · intro k hk
        show alookup _ k = none
        rw [alookup_eraseFold, if_pos hk]
      · intro k hk
        show alookup _ k = alookup cache k
        rw [alookup_eraseFold, if_neg hk]
      · intro k hk; exact mem_cleanedIds ok message_ids k hk
      · rw [if_neg hcl]

/-- C4 (counterexample to the claim as stated): trashing the single id `0`
when its (only) remote batch call fails performs zero cache persists — the
code guards the load-modify-save step with `if cleaned_ids:`, so "persisting
the cache once after all batches" does not happen on an all-failed run. -/
theorem c4_counterexample :
    ¬ ([0] : List Nat).isEmpty ∧
    (delete_messages (fun _ => false) [(0, rec0)] [0]).saves = 0 := by
  refine ⟨by decide, by decide⟩

theorem c4_witness :
    (delete_messages (fun b => decide (b = 0)) [(0, rec0), (1, rec0)] [0]).count = 1 ∧
    alookup (delete_messages (fun b => decide (b = 0)) [(0, rec0), (1, rec0)] [0]).disk 0 =
      none ∧
    alookup (delete_messages (fun b => decide (b = 0)) [(0, rec0), (1, rec0)] [0]).disk 1 =
      some rec0 := by
  refine ⟨?_, ?_, ?_⟩
  · rw [(c4_amended (fun b => decide (b = 0)) [(0, rec0), (1, rec0)] [0]).1]
    decide
  · exact (c4_amended (fun b => decide (b = 0)) [(0, rec0), (1, rec0)] [0]).2.1 0 (by decide)
  · rw [(c4_amended (fun b => decide (b = 0)) [(0, rec0), (1, rec0)] [0]).2.2.1 1 (by decide)]
    decide

/-- C10 (confirmed): after `delete_messages`, every cache entry whose key is
not among the successfully trashed ids still maps to its old record, and no
key that was absent before is present afterwards (no new entries). -/
theorem c10_frame {α : Type} [DecidableEq α] (ok : Nat → Bool)
    (cache : List (α × CacheRecord)) (message_ids : List α) :
    (∀ k, k ∉ cleanedIds ok message_ids →
      alookup (delete_messages ok cache message_ids).disk k = alookup cache k) ∧
    (∀ k, (alookup (delete_messages ok cache message_ids).disk k).isSome →
      (alookup cache k).isSome) := by
  have hmain := c4_amended ok cache message_ids
  refine ⟨hmain.2.2.1, ?_⟩
  intro k hk
  by_cases hmem : k ∈ cleanedIds ok message_ids
  · rw [hmain.2.1 k hmem] at hk
    simp at hk
  · rwa [hmain.2.2.1 k hmem] at hk

theorem c10_witness :
    alookup (delete_messages (fun _ => true) [(0, rec0), (1, rec0)] [0]).disk 1 =
      some rec0 := by
  rw [(c10_frame (fun _ => true) [(0, rec0), (1, rec0)] [0]).1 1 (by decide)]
  decide

/-!
## Stats aggregator (`fetch_email_stats`, `src/utils.py` lines 264-352)

The query string pre-processing (lines 292-310) turns `before:YYYY-MM-DD`
into `before_ts` (epoch milliseconds of the date at local midnight, computed
by `time.mktime`; `None` when absent or malformed) and `category:xxx` into
`target_category` (`CATEGORY_XXX` for the four known categories, `None`
otherwise).  The embedding starts from these pre-processed values.  The loop
over `cache.items()` skips a record when `before_ts and last_date >=
before_ts` — note the Python truthiness test: a computed cutoff of exactly
`0` (epoch midnight) disables the date filter — or when `target_category`
is set and not among the record's labels.  Each surviving record bumps
`total_scanned`, updates the running minimum timestamp, and updates its
sender's group in an insertion-ordered defaultdict.  Groups become dicts
`{email, count, ids, name, last_date}` sorted by descending count (Python's
`sorted` with `reverse=True` is stable; the embedding uses a stable insertion
sort with the same comparator).  The `strftime` display formatting of the
oldest timestamp is abstracted: the raw minimum is returned.
-/

/-- The per-sender accumulator of the `stats` defaultdict: default value
`{"count": 0, "ids": [], "name": "Unknown"}` (a missing `last_date` reads as
`0` through `.get("last_date", 0)`). -/
structure SGroup (α : Type) where
  count : Nat
  ids : List α
  name : String
  last_date : Int
deriving DecidableEq, Repr

/-- One entry of the returned `stats` list: `{"email": k, **v}`. -/
structure SenderStat (α : Type) where
  email : String
  count : Nat
  ids : List α
  name : String
  last_date : Int
deriving DecidableEq, Repr

/-- Line 314: `if before_ts and data.get("last_date", 0) >= before_ts:
continue`.  `before_ts` is falsy both when `None` and when the computed
cutoff is exactly `0.0`. -/
def dateExcludes : Option Int → CacheRecord → Bool
  | none, _ => false
  | some t, r => !(decide (t = 0)) && decide (t ≤ r.last_date)

/-- Lines 318-321: `if target_category: ... if target_category not in
labels: continue`. -/
def catExcludes : Option String → CacheRecord → Bool
  | none, _ => false
  | some c, r => !(r.labels.contains c)

/-- A record survives both `continue` guards. -/
def keepRecord (before_ts : Option Int) (cat : Option String) (r : CacheRecord) : Bool :=
  !(dateExcludes before_ts r) && !(catExcludes cat r)

/-- The records the aggregation loop actually processes, in cache order. -/
def surviving {α : Type} (cache : List (α × CacheRecord)) (before_ts : Option Int)
    (cat : Option String) : List (α × CacheRecord) :=
  cache.filter (fun p => keepRecord before_ts cat p.2)

/-- Lines 330-334: update the sender's group in the `stats` defaultdict. -/
def addToStats {α : Type} (groups : List (String × SGroup α)) (mid : α) (r : CacheRecord) :
    List (String × SGroup α) :=
  let g := (alookup groups r.email).getD ⟨0, [], "Unknown", 0⟩
  dictInsert groups r.email
    ⟨g.count + 1, g.ids ++ [mid], r.name, max g.last_date r.last_date⟩

/-- The grouping pass over the surviving records. -/
def buildGroups {α : Type} (l : List (α × CacheRecord)) : List (String × SGroup α) :=
  l.foldl (fun acc p => addToStats acc p.1 p.2) []

/-- The running minimum of `last_date` over the surviving records
(`oldest_timestamp`, `float("inf")` modelled as `none`). -/
def oldestOf {α : Type} (l : List (α × CacheRecord)) : Option Int :=
  l.foldl
    (fun acc p =>
      match acc with
      | none => some p.2.last_date
      | some o => if p.2.last_date < o then some p.2.last_date else some o)
    none

/-- `{"email": k, **v}`. -/
def toStat {α : Type} (p : String × SGroup α) : SenderStat α :=
  ⟨p.1, p.2.count, p.2.ids, p.2.name, p.2.last_date⟩

/-- Stable insertion of a stat into a count-descending list: the new element
goes after every earlier element with the same count, matching the stability
of Python's `sorted(..., key=count, reverse=True)`. -/
def insertStat {α : Type} (x : SenderStat α) : List (SenderStat α) → List (SenderStat α)
  | [] => [x]
  | y :: ys => if y.count ≤ x.count then x :: y :: ys else y :: insertStat x ys

/-- Stable sort by descending `count` (line 337's `sorted(...,
key=lambda x: x["count"], reverse=True)`). -/
def sortByCountDesc {α : Type} : List (SenderStat α) → List (SenderStat α)
  | [] => []
  | x :: xs => insertStat x (sortByCountDesc xs)

/-- Result of `fetch_email_stats`: the sorted stats plus the scan metadata. -/
structure StatsResult (α : Type) where
  stats : List (SenderStat α)
  total_scanned : Nat
  oldest : Option Int
deriving Repr

/-- `fetch_email_stats` over a loaded cache, starting from the pre-processed
filter values (see the section comment).  The empty-cache early return is
line 281. -/
def fetch_email_stats {α : Type} (cache : List (α × CacheRecord))
    (before_ts : Option Int) (target_category : Option String) : StatsResult α :=
  if cache.isEmpty then ⟨[], 0, none⟩
  else
    let survivors := surviving cache before_ts target_category
    ⟨sortByCountDesc ((buildGroups survivors).map toStat), survivors.length,
      oldestOf survivors⟩

theorem insertStat_perm {α : Type} (x : SenderStat α) (l : List (SenderStat α)) :
    (insertStat x l).Perm (x :: l) := by
  induction l with
  | nil => exact List.Perm.refl _
  | cons y ys ih =>
    by_cases h : y.count ≤ x.count
    · rw [insertStat, if_pos h]
    · rw [insertStat, if_neg h]
      exact (ih.cons y).trans (List.Perm.swap x y ys)

theorem sortByCountDesc_perm {α : Type} (l : List (SenderStat α)) :
    (sortByCountDesc l).Perm l := by
  induction l with
  | nil => exact List.Perm.refl _
  | cons x xs ih =>
    exact (insertStat_perm x (sortByCountDesc xs)).trans (ih.cons x)

theorem insertStat_sorted {α : Type} (x : SenderStat α) (l : List (SenderStat α))
    (h : l.Pairwise (fun a b => b.count ≤ a.count)) :
    (insertStat x l).Pairwise (fun a b => b.count ≤ a.count) := by
  induction l with
  | nil => simp [insertStat]
  | cons y ys ih =>
    obtain ⟨hy, hys⟩ := List.pairwise_cons.mp h
    by_cases hc : y.count ≤ x.count
    · rw [insertStat, if_pos hc]
      apply List.pairwise_cons.mpr
      refine ⟨?_, h⟩
      intro z hz
      rcases List.mem_cons.mp hz with hz | hz
      · subst hz; exact hc
      · exact le_trans (hy z hz) hc
    · rw [insertStat, if_neg hc]
      apply List.pairwise_cons.mpr
      refine ⟨?_, ih hys⟩
      intro z hz
      have hz2 : z ∈ x :: ys := (insertStat_perm x ys).mem_iff.mp hz
      rcases List.mem_cons.mp hz2 with hz2 | hz2
      · subst hz2; omega
      · exact hy z hz2

theorem sortByCountDesc_sorted {α : Type} (l : List (SenderStat α)) :
    (sortByCountDesc l).Pairwise (fun a b => b.count ≤ a.count) := by
  induction l with
  | nil => simp [sortByCountDesc]
  | cons x xs ih => exact insertStat_sorted x (sortByCountDesc xs) ih

theorem map_replace_id {κ β : Type} [DecidableEq κ] (k : κ) (v : β) :
    ∀ (c : List (κ × β)), k ∉ dkeys c →
      c.map (fun p => if p.1 = k then (k, v) else p) = c := by
  intro c
  induction c with
  | nil => intro _; rfl
  | cons p rest ih =>
    intro h
    rw [dkeys_cons] at h
    have h1 : ¬ p.1 = k := fun he => h (he ▸ List.mem_cons_self _ _)
    have h2 : k ∉ dkeys rest := fun hm => h (List.mem_cons_of_mem _ hm)
    simp [h1, ih h2]

theorem dkeys_dictInsert_mem {κ β : Type} [DecidableEq κ] (c : List (κ × β)) (k : κ) (v : β)
    (h : (alookup c k).isSome) : dkeys (dictInsert c k v) = dkeys c := by
  rw [dictInsert, if_pos h, dkeys, List.map_map]
  apply List.map_congr_left
  intro p _
  by_cases hp : p.1 = k <;> simp [hp]

theorem dkeys_dictInsert_fresh {κ β : Type} [DecidableEq κ] (c : List (κ × β)) (k : κ)
    (v : β) (h : ¬ (alookup c k).isSome) : dkeys (dictInsert c k v) = dkeys c ++ [k] := by
  have hk : k ∉ dkeys c := by
    rw [← alookup_isSome_iff]
    exact h
  rw [dictInsert_fresh c k v hk, dkeys_append]
  rfl

theorem sum_count_dictInsert {α : Type} (k : String) (v : SGroup α) :
    ∀ (c : List (String × SGroup α)) (g : SGroup α), (dkeys c).Nodup →
      alookup c k = some g →
      ((dictInsert c k v).map (fun p => p.2.count)).sum + g.count =
        (c.map (fun p => p.2.count)).sum + v.count := by
  intro c
  induction c with
  | nil => intro g _ hg; cases hg
  | cons p rest ih =>
    intro g hnd hg
    rw [dkeys_cons] at hnd
    have hnd2 := List.nodup_cons.mp hnd
    have hins : (alookup (p :: rest) k).isSome := by rw [hg]; rfl
    rw [dictInsert, if_pos hins]
    by_cases hp : p.1 = k
    · have hgp : g = p.2 := by
        have : alookup (p :: rest) k = some p.2 := by simp [alookup, hp]
        rw [this] at hg
        exact (Option.some_injective _ hg).symm
      have hrest : k ∉ dkeys rest := hp ▸ hnd2.1
      rw [List.map_cons, if_pos hp, map_replace_id k v rest hrest, hgp]
      simp
      omega
    · have hg2 : alookup rest k = some g := by
        rw [alookup] at hg
        rwa [if_neg hp] at hg
      have hins2 : (alookup rest k).isSome := by rw [hg2]; rfl
      have := ih g hnd2.2 hg2
      rw [dictInsert, if_pos hins2] at this
      rw [List.map_cons, if_neg hp]
      simp at this ⊢
      omega

theorem buildGroups_snoc {α : Type} (l : List (α × CacheRecord)) (q : α × CacheRecord) :
    buildGroups (l ++ [q]) = addToStats (buildGroups l) q.1 q.2 := by
  simp [buildGroups, List.foldl_append]

/-- Invariant of the grouping pass: group keys are exactly the distinct sender
emails seen so far, each group's `count`/`ids` are the number and list of this
sender's records in processing order, and the counts sum to the number of
processed records. -/
theorem buildGroups_spec {α : Type} (l : List (α × CacheRecord)) :
    (dkeys (buildGroups l)).Nodup ∧
    (∀ e, e ∈ dkeys (buildGroups l) ↔ e ∈ l.map (fun p => p.2.email)) ∧
    (∀ e g, alookup (buildGroups l) e = some g →
      g.count = (l.filter (fun p => decide (p.2.email = e))).length ∧
      g.ids = (l.filter (fun p => decide (p.2.email = e))).map Prod.fst) ∧
    ((buildGroups l).map (fun p => p.2.count)).sum = l.length := by
  induction l using List.reverseRecOn with
  | nil =>
    refine ⟨by simp [buildGroups, dkeys], by simp [buildGroups, dkeys], ?_, by simp [buildGroups]⟩
    intro e g hg
    cases hg
  | append_singleton l q ih =>
    obtain ⟨ihnd, ihiff, ihlook, ihsum⟩ := ih
    rw [buildGroups_snoc]
    have hfilter : ∀ e, (l ++ [q]).filter (fun p => decide (p.2.email = e)) =
        l.filter (fun p => decide (p.2.email = e)) ++
          (if q.2.email = e then [q] else []) := by
      intro e
      rw [List.filter_append]
      congr 1
      by_cases hqe : q.2.email = e <;> simp [List.filter_cons, hqe]
    by_cases halo : (alookup (buildGroups l) q.2.email).isSome
    · obtain ⟨g, hg⟩ := Option.isSome_iff_exists.mp halo
      have hgd : (alookup (buildGroups l) q.2.email).getD ⟨0, [], "Unknown", 0⟩ = g := by
        rw [hg]; rfl
      have hkeys : dkeys (addToStats (buildGroups l) q.1 q.2) = dkeys (buildGroups l) := by
        rw [addToStats, hgd]
        exact dkeys_dictInsert_mem _ _ _ halo
      have hlook : ∀ e, alookup (addToStats (buildGroups l) q.1 q.2) e =
          if e = q.2.email then
            some ⟨g.count + 1, g.ids ++ [q.1], q.2.name, max g.last_date q.2.last_date⟩
          else alookup (buildGroups l) e := by
        intro e
        rw [addToStats, hgd, alookup_dictInsert]
      refine ⟨?_, ?_, ?_, ?_⟩
      · rw [hkeys]; exact ihnd
      · intro e
        rw [hkeys, ihiff, List.map_append]
        constructor
        · intro h; exact List.mem_append.mpr (Or.inl h)
        · intro h
          rcases List.mem_append.mp h with h | h
          · exact h
          · have he : e = q.2.email := by simpa using h
            subst he
            rw [← ihiff, ← alookup_isSome_iff]
            exact halo
      · intro e g' hg'
        rw [hlook] at hg'
        by_cases he : e = q.2.email
        · rw [if_pos he] at hg'
          obtain ⟨hc, hi⟩ := ihlook e g (he ▸ hg)
          have hqe : q.2.email = e := he.symm
          cases hg'.symm
          constructor
          · rw [hfilter, if_pos hqe, List.length_append, hc]
            rfl
          · rw [hfilter, if_pos hqe, List.map_append, hi]
            rfl
        · rw [if_neg he] at hg'
          obtain ⟨hc, hi⟩ := ihlook e g' hg'
          have hqe : ¬ q.2.email = e := fun hh => he hh.symm
          rw [hfilter, if_neg hqe, List.append_nil]
          exact ⟨hc, hi⟩
      · have hsum := sum_count_dictInsert q.2.email
          ⟨g.count + 1, g.ids ++ [q.1], q.2.name, max g.last_date q.2.last_date⟩
          (buildGroups l) g ihnd hg
        simp only at hsum
        rw [addToStats, hgd]
        simp only [List.length_append, List.length_cons, List.length_nil]
        omega
    · have hnone : alookup (buildGroups l) q.2.email = none := by
        cases ha : alookup (buildGroups l) q.2.email with
        | none => rfl
        | some w => rw [ha] at halo; simp at halo
      have hgd : (alookup (buildGroups l) q.2.email).getD ⟨0, [], "Unknown", 0⟩ =
          (⟨0, [], "Unknown", 0⟩ : SGroup α) := by
        rw [hnone]; rfl
      have hnotin : q.2.email ∉ dkeys (buildGroups l) := by
        rw [← alookup_isSome_iff]
        exact halo
      have hnew : addToStats (buildGroups l) q.1 q.2 =
          buildGroups l ++
            [(q.2.email, ⟨1, [q.1], q.2.name, max 0 q.2.last_date⟩)] := by
        rw [addToStats, hgd, dictInsert_fresh _ _ _ hnotin]
        rfl
      have hemail : q.2.email ∉ l.map (fun p => p.2.email) := by
        rw [← ihiff]; exact hnotin
      have hfilnil : l.filter (fun p => decide (p.2.email = q.2.email)) = [] := by
        apply List.filter_eq_nil_iff.mpr
        intro p hp hmem
        apply hemail
        have : p.2.email = q.2.email := by simpa using hmem
        rw [← this]
        exact List.mem_map_of_mem _ hp
      refine ⟨?_, ?_, ?_, ?_⟩
      · rw [hnew, dkeys_append]
        apply List.nodup_append.mpr
        refine ⟨ihnd, by simp [dkeys], ?_⟩
        intro x hx hx2
        have : x = q.2.email := by simpa [dkeys] using hx2
        subst this
        exact hnotin hx
      · intro e
        rw [hnew, dkeys_append, List.map_append]
        constructor
        · intro h
          rcases List.mem_append.mp h with h | h
          · exact List.mem_append.mpr (Or.inl ((ihiff e).mp h))
          · have : e = q.2.email := by simpa [dkeys] using h
            subst this
            exact List.mem_append.mpr (Or.inr (by simp))
        · intro h
          rcases List.mem_append.mp h with h | h
          · exact List.mem_append.mpr (Or.inl ((ihiff e).mpr h))
          · have : e = q.2.email := by simpa using h
            subst this
            exact List.mem_append.mpr (Or.inr (by simp [dkeys]))
      · intro e g' hg'
        rw [hnew, alookup_append] at hg'
        by_cases he : e = q.2.email
        · subst he
          rw [hnone] at hg'
          have : g' = ⟨1, [q.1], q.2.name, max 0 q.2.last_date⟩ := by
            simpa [alookup] using hg'.symm
          subst this
          constructor
          · rw [hfilter, if_pos rfl, hfilnil]
            rfl
          · rw [hfilter, if_pos rfl, hfilnil]
            rfl
        · have hq : alookup
              [(q.2.email, (⟨1, [q.1], q.2.name, max 0 q.2.last_date⟩ : SGroup α))] e =
              none := by
            have : ¬ q.2.email = e := fun hh => he hh.symm
            simp [alookup, this]
          rw [hq] at hg'
          have hg2 : alookup (buildGroups l) e = some g' := by
            cases ha : alookup (buildGroups l) e with
            | none => rw [ha] at hg'; cases hg'
            | some w => rw [ha] at hg'; exact hg'
          obtain ⟨hc, hi⟩ := ihlook e g' hg2
          have hqe : ¬ q.2.email = e := fun hh => he hh.symm
          rw [hfilter, if_neg hqe, List.append_nil]
          exact ⟨hc, hi⟩
      · rw [hnew, List.map_append, List.sum_append]
        simp [ihsum]

theorem pair_unique_of_nodup_keys {κ β : Type} [DecidableEq κ] (l : List (κ × β))
    (hnd : (dkeys l).Nodup) (k : κ) (a b : β) (ha : (k, a) ∈ l) (hb : (k, b) ∈ l) :
    a = b := by
  have h1 := alookup_eq_some_of_nodup l k a hnd ha
  have h2 := alookup_eq_some_of_nodup l k b hnd hb
  rw [h1] at h2
  exact Option.some_injective _ h2

/-- C5 (confirmed): with no filters, the aggregation returns one `SenderStat`
per distinct sender email among the records, whose `count` is the number of
that sender's records, and the returned sequence is sorted by descending
count. -/
theorem c5_aggregation {α : Type} (cache : List (α × CacheRecord)) :
    ((fetch_email_stats cache none none).stats.map (fun st => st.email)).Nodup ∧
    (∀ e, e ∈ (fetch_email_stats cache none none).stats.map (fun st => st.email) ↔
      e ∈ cache.map (fun p => p.2.email)) ∧
    (∀ st ∈ (fetch_email_stats cache none none).stats,
      st.count = (cache.filter (fun p => decide (p.2.email = st.email))).length) ∧
    (fetch_email_stats cache none none).stats.Pairwise (fun a b => b.count ≤ a.count) := by
  by_cases hemp : cache.isEmpty
  · have hnil : cache = [] := by
      cases cache with
      | nil => rfl
      | cons a t => simp [List.isEmpty] at hemp
    subst hnil
    refine ⟨by simp [fetch_email_stats], by simp [fetch_email_stats], ?_,
      by simp [fetch_email_stats]⟩
    intro st hst
    simp [fetch_email_stats] at hst
  · have hsurv : surviving cache none none = cache := by
      apply List.filter_eq_self.mpr
      intro p _
      rfl
    have hres : fetch_email_stats cache none none =
        ⟨sortByCountDesc ((buildGroups cache).map toStat), cache.length,
          oldestOf cache⟩ := by
      rw [fetch_email_stats, if_neg hemp, hsurv]
    obtain ⟨hnd, hiff, hlook, _⟩ := buildGroups_spec cache
    have hperm : (sortByCountDesc ((buildGroups cache).map toStat)).Perm
        ((buildGroups cache).map toStat) := sortByCountDesc_perm _
    have hemails : ((buildGroups cache).map toStat).map (fun st => st.email) =
        dkeys (buildGroups cache) := by
      rw [List.map_map]
      rfl
    have hperme : ((sortByCountDesc ((buildGroups cache).map toStat)).map
        (fun st => st.email)).Perm (dkeys (buildGroups cache)) := by
      rw [← hemails]
      exact hperm.map _
    refine ⟨?_, ?_, ?_, ?_⟩
    · rw [hres]
      exact (hperme.nodup_iff).mpr hnd
    · intro e
      rw [hres]
      show e ∈ _ ↔ _
      rw [hperme.mem_iff]
      exact hiff e
    · intro st hst
      rw [hres] at hst
      have hst2 : st ∈ (buildGroups cache).map toStat := hperm.mem_iff.mp hst
      obtain ⟨p, hp, rfl⟩ := List.mem_map.mp hst2
      have halo : alookup (buildGroups cache) p.1 = some p.2 :=
        alookup_eq_some_of_nodup _ _ _ hnd hp
      exact (hlook p.1 p.2 halo).1
    · rw [hres]
      exact sortByCountDesc_sorted _

/-- C9 (confirmed): for every cache (with distinct keys) and every filter
combination, the returned stats carry pairwise-distinct sender emails (so
there is at most one stat per sender), the counts of the returned stats sum
to `total_scanned`, and each surviving record's id appears in the `ids` of
exactly the one stat of that record's sender (its sender's stat exists, and
membership in any stat's `ids` holds precisely when that stat is the
sender's). -/
theorem c9_partition {α : Type} [DecidableEq α] (cache : List (α × CacheRecord))
    (before_ts : Option Int)
    (cat : Option String) (hnd : (dkeys cache).Nodup) :
    ((fetch_email_stats cache before_ts cat).stats.map (fun st => st.email)).Nodup ∧
    ((fetch_email_stats cache before_ts cat).stats.map (fun st => st.count)).sum =
      (fetch_email_stats cache before_ts cat).total_scanned ∧
    (∀ mid rec, (mid, rec) ∈ surviving cache before_ts cat →
      (∃ st, st ∈ (fetch_email_stats cache before_ts cat).stats ∧ st.email = rec.email) ∧
      (∀ st ∈ (fetch_email_stats cache before_ts cat).stats,
        (mid ∈ st.ids ↔ st.email = rec.email))) := by
  by_cases hemp : cache.isEmpty
  · have hnil : cache = [] := by
      cases cache with
      | nil => rfl
      | cons a t => simp [List.isEmpty] at hemp
    subst hnil
    refine ⟨by simp [fetch_email_stats], by simp [fetch_email_stats], ?_⟩
    intro mid rec hmem
    simp [surviving] at hmem
  · have hres : fetch_email_stats cache before_ts cat =
        ⟨sortByCountDesc ((buildGroups (surviving cache before_ts cat)).map toStat),
          (surviving cache before_ts cat).length,
          oldestOf (surviving cache before_ts cat)⟩ := by
      rw [fetch_email_stats, if_neg hemp]
    have hsnd : (dkeys (surviving cache before_ts cat)).Nodup := by
      apply List.Nodup.sublist _ hnd
      exact (List.filter_sublist cache).map Prod.fst
    obtain ⟨hgnd, hiff, hlook, hsum⟩ := buildGroups_spec (surviving cache before_ts cat)
    have hperm : (sortByCountDesc
        ((buildGroups (surviving cache before_ts cat)).map toStat)).Perm
        ((buildGroups (surviving cache before_ts cat)).map toStat) := sortByCountDesc_perm _
    have hemails : ((buildGroups (surviving cache before_ts cat)).map toStat).map
        (fun st => st.email) = dkeys (buildGroups (surviving cache before_ts cat)) := by
      rw [List.map_map]
      rfl
    have hperme : ((sortByCountDesc
        ((buildGroups (surviving cache before_ts cat)).map toStat)).map
        (fun st => st.email)).Perm (dkeys (buildGroups (surviving cache before_ts cat))) := by
      rw [← hemails]
      exact hperm.map _
    refine ⟨?_, ?_, ?_⟩
    · rw [hres]
      show (List.map _ _).Nodup
      exact (hperme.nodup_iff).mpr hgnd
    · rw [hres]
      show (List.map _ _).sum = _
      have hpermc := (hperm.map (fun st => st.count)).sum_eq
      rw [hpermc, List.map_map]
      have : ((fun st => SenderStat.count st) ∘ toStat) =
          (fun p : String × SGroup α => p.2.count) := rfl
      rw [this, hsum]
    · intro mid rec hmem
      constructor
      · have he : rec.email ∈ dkeys (buildGroups (surviving cache before_ts cat)) := by
          rw [hiff]
          exact List.mem_map_of_mem (fun p => p.2.email) hmem
        obtain ⟨p, hp, hp1⟩ := List.mem_map.mp he
        refine ⟨toStat p, ?_, hp1⟩
        rw [hres]
        show toStat p ∈ sortByCountDesc _
        rw [hperm.mem_iff]
        exact List.mem_map_of_mem toStat hp
      · intro st hst
        rw [hres] at hst
        have hst2 : st ∈ (buildGroups (surviving cache before_ts cat)).map toStat :=
          hperm.mem_iff.mp hst
        obtain ⟨p, hp, rfl⟩ := List.mem_map.mp hst2
        have halo : alookup (buildGroups (surviving cache before_ts cat)) p.1 = some p.2 :=
          alookup_eq_some_of_nodup _ _ _ hgnd hp
        have hids := (hlook p.1 p.2 halo).2
        show mid ∈ p.2.ids ↔ (toStat p).email = rec.email
        rw [hids]
        constructor
        · intro hmid
          obtain ⟨p', hp', hp'1⟩ := List.mem_map.mp hmid
          have hp'S : p' ∈ surviving cache before_ts cat := (List.mem_filter.mp hp').1
          have hp'e : p'.2.email = p.1 := by
            have := (List.mem_filter.mp hp').2
            simpa using this
          have hp'S2 : (mid, p'.2) ∈ surviving cache before_ts cat := by
            rw [← hp'1]
            exact hp'S
          have hrec : p'.2 = rec :=
            pair_unique_of_nodup_keys (surviving cache before_ts cat) hsnd mid p'.2 rec
              hp'S2 hmem
          show p.1 = rec.email
          rw [← hrec, ← hp'e]
        · intro heq
          have heq2 : rec.email = p.1 := heq.symm
          have hin : (mid, rec) ∈ (surviving cache before_ts cat).filter
              (fun q => decide (q.2.email = p.1)) :=
            List.mem_filter.mpr ⟨hmem, by simpa using heq2⟩
          exact List.mem_map_of_mem Prod.fst hin

/-- C6 (amended): for a computed cutoff `t ≠ 0`, a record is excluded by the
aggregation's date guard iff `last_date >= t` (so a record stamped exactly at
the cutoff instant is excluded and one strictly before it is included); but
for the cutoff `t = 0` — produced by `before:1970-01-01` in a UTC-offset-zero
locale — Python's `if before_ts and ...` truthiness test disables the filter
and every record is kept. -/
theorem c6_amended (t : Int) (ht : t ≠ 0) :
    (∀ r : CacheRecord, (keepRecord (some t) none r = false ↔ t ≤ r.last_date)) ∧
    (∀ {α : Type} (cache : List (α × CacheRecord)) (p : α × CacheRecord),
      p ∈ surviving cache (some t) none ↔ p ∈ cache ∧ ¬ t ≤ p.2.last_date) ∧
    (∀ r : CacheRecord, keepRecord (some 0) none r = true) := by
  refine ⟨?_, ?_, ?_⟩
  · intro r
    simp [keepRecord, dateExcludes, catExcludes, ht]
  · intro α cache p
    rw [surviving, List.mem_filter]
    simp [keepRecord, dateExcludes, catExcludes, ht]
  · intro r
    simp [keepRecord, dateExcludes, catExcludes]

/-- C6 (counterexample to the claim as stated): a record with
`last_date = 5 >= 0` is nevertheless included in the aggregation when the
computed cutoff is `0` (the calendar date 1970-01-01 at local midnight in a
UTC-offset-zero locale): `before_ts = 0.0` is falsy, so the guard
`if before_ts and last_date >= before_ts` never fires. -/
theorem c6_counterexample :
    (0 : Int) ≤ (5 : Int) ∧
    keepRecord (some 0) none ⟨"a@example.com", "A", 5, []⟩ = true ∧
    (fetch_email_stats [(0, (⟨"a@example.com", "A", 5, []⟩ : CacheRecord))]
        (some 0) none).total_scanned = 1 := by
  refine ⟨by decide, by decide, by decide⟩

theorem c6_witness :
    (1000 : Int) ≠ 0 ∧
    (keepRecord (some 1000) none rec0 = false ↔ (1000 : Int) ≤ rec0.last_date) :=
  ⟨by decide, (c6_amended 1000 (by decide)).1 rec0⟩

/-- The five-record cache of the spec's aggregation example: three messages
from sender `x@e`, two from `y@e`. -/
def cacheX : List (Nat × CacheRecord) :=
  [(0, ⟨"x@e", "X", 10, []⟩), (1, ⟨"x@e", "X", 11, []⟩), (2, ⟨"x@e", "X", 12, []⟩),
   (3, ⟨"y@e", "Y", 20, []⟩), (4, ⟨"y@e", "Y", 21, []⟩)]

theorem c5_witness :
    ((fetch_email_stats cacheX none none).stats.map (fun st => st.email)).Nodup ∧
    (fetch_email_stats cacheX none none).stats.Pairwise (fun a b => b.count ≤ a.count) ∧
    (fetch_email_stats cacheX none none).stats.map (fun st => st.email) = ["x@e", "y@e"] :=
  ⟨(c5_aggregation cacheX).1, (c5_aggregation cacheX).2.2.2, by decide⟩

theorem c9_witness :
    (dkeys cacheX).Nodup ∧
    ((fetch_email_stats cacheX (some 15) none).stats.map (fun st => st.email)).Nodup ∧
    ((fetch_email_stats cacheX (some 15) none).stats.map (fun st => st.count)).sum =
      (fetch_email_stats cacheX (some 15) none).total_scanned :=
  ⟨by decide, (c9_partition cacheX (some 15) none (by decide)).1,
    (c9_partition cacheX (some 15) none (by decide)).2.1⟩

/-!
## Cache store (`load_cache`, `src/utils.py` lines 239-251)

`load_cache` returns `{}` when the file does not exist; otherwise it runs
`json.load` under a bare `except:` that swallows every exception (missing
file race, I/O error, JSON decode error) and returns `{}`.  When `json.load`
succeeds it returns the parsed value unchanged — whatever JSON value the file
held, not necessarily an object.  The persisted file is modelled by
`CacheFileState`: absent, unreadable/unparsable, or holding a parsed JSON
value `JsonVal`.  `load_cache` is a total function of that state, which is
the embedding of "never raises". -/

/-- A parsed JSON value (numbers modelled as integers; their value is
irrelevant to the claims). -/
inductive JsonVal where
  | obj (entries : List (String × JsonVal))
  | arr (elems : List JsonVal)
  | str (s : String)
  | num (n : Int)
  | boolean (b : Bool)
  | nullVal
deriving Repr

/-- The observable state of `email_cache.json` on disk. -/
inductive CacheFileState where
  | absent
  | unreadable
  | stored (j : JsonVal)
deriving Repr

/-- `load_cache()`: the persisted JSON value when the file exists and parses,
an empty object otherwise.  Totality of this function is the model of "never
raises or propagates an error" (the bare `except:` catches everything). -/
def load_cache : CacheFileState → JsonVal
  | CacheFileState.absent => JsonVal.obj []
  | CacheFileState.unreadable => JsonVal.obj []
  | CacheFileState.stored j => j

/-- C8 (amended): `load_cache` is total (never raises); it returns the
persisted mapping whenever the file holds a JSON object, and the empty
mapping when the file is absent or unreadable/unparsable.  But a file holding
valid JSON that is not an object (e.g. an array) is returned verbatim, not
normalized to a mapping — the one deviation from the claim as stated. -/
theorem c8_amended :
    (∀ entries, load_cache (CacheFileState.stored (JsonVal.obj entries)) =
      JsonVal.obj entries) ∧
    load_cache CacheFileState.absent = JsonVal.obj [] ∧
    load_cache CacheFileState.unreadable = JsonVal.obj [] :=
  ⟨fun _ => rfl, rfl, rfl⟩

/-- C8 (counterexample to the claim as stated): a cache file containing the
valid JSON text `[]` parses successfully, so `load_cache` returns the list
itself — not a mapping of any kind.  `json.load` only fails on unparsable
text; it happily returns non-object values. -/
theorem c8_counterexample :
    ¬ ∃ entries, load_cache (CacheFileState.stored (JsonVal.arr [])) =
      JsonVal.obj entries :=
  fun ⟨_, h⟩ => JsonVal.noConfusion h

theorem c8_witness :
    load_cache (CacheFileState.stored (JsonVal.obj [("a", JsonVal.num 1)])) =
      JsonVal.obj [("a", JsonVal.num 1)] :=
  c8_amended.1 [("a", JsonVal.num 1)]

theorem c7_witness :
    (stateAfterBatches (fun _ => some rec0) (fun _ => true) none [0]
        ([] : List (Nat × CacheRecord)) 1).scanned =
      ((batchNums 0 1).map
        (fun b => if true then (chunkAt ([0] : List Nat) (100 * b)).length else 0)).sum :=
  c7_amended (fun _ => some rec0) (fun _ => true) [0] [] 1
